import Mathlib

/-!
Verification of the emsqrt external-memory ETL engine core against its
specification.  The Rust sources are shallowly embedded: pure functions become
Lean functions, stateful code becomes explicit state passing, machine integers
become `Nat`/`Int` with explicit saturation or wrap-around where the source
performs it, and fallible code returns `Except`/`Option`.

Conventions used throughout:
* bytes are `Nat` values (< 256 where it matters);
* Rust `usize` arithmetic is `Nat` with an explicit `2 ^ 64` bound where the
  source saturates or wraps;
* IEEE floats appear only through their ordering / NaN behaviour, so an `f32`
  or `f64` payload is modelled as `Flt`: either `nan` or an ordered non-NaN
  value (`val q`); this captures exactly what `is_nan`, `partial_cmp` and the
  source-level comparisons observe (all NaNs are identified, as are `0.0` and
  `-0.0`, which those operations cannot distinguish);
* external crates (serde_json, blake3, zstd, lz4) are not part of the
  repository; they enter as explicit function parameters, with the properties
  the spec assigns to them stated as hypotheses where a theorem needs them.
-/

namespace EmSqrt

/-! ## Ordering helpers

Rust `std::cmp::Ordering` is Lean `Ordering`.  `cmpOfLinear` is the comparison
of any linear order written the way Rust `Ord::cmp` behaves on primitive
types. -/

/-- Rust `Ord::cmp` on a linearly ordered type. -/
def cmpOfLinear {α : Type} [LinearOrder α] (x y : α) : Ordering :=
  if x < y then .lt else if x = y then .eq else .gt

theorem cmpOfLinear_refl {α : Type} [LinearOrder α] (x : α) :
    cmpOfLinear x x = .eq := by
  simp [cmpOfLinear]

theorem cmpOfLinear_swap {α : Type} [LinearOrder α] (x y : α) :
    cmpOfLinear x y = (cmpOfLinear y x).swap := by
  unfold cmpOfLinear
  rcases lt_trichotomy x y with h | h | h
  · simp [h, not_lt.mpr h.le, h.ne.symm, Ordering.swap]
  · simp [h, Ordering.swap]
  · simp [h, not_lt.mpr h.le, h.ne.symm, h.ne, Ordering.swap]

theorem cmpOfLinear_eq_iff {α : Type} [LinearOrder α] (x y : α) :
    cmpOfLinear x y = .eq ↔ x = y := by
  unfold cmpOfLinear
  rcases lt_trichotomy x y with h | h | h
  · simp [h, h.ne]
  · simp [h]
  · simp [not_lt.mpr h.le, h.ne.symm, h.ne']

theorem cmpOfLinear_isLE_iff {α : Type} [LinearOrder α] (x y : α) :
    (cmpOfLinear x y).isLE = true ↔ x ≤ y := by
  unfold cmpOfLinear
  rcases lt_trichotomy x y with h | h | h
  · simp [h, Ordering.isLE, h.le]
  · simp [h, Ordering.isLE]
  · simp [not_lt.mpr h.le, h.ne.symm, Ordering.isLE, not_le.mpr h]

theorem cmpOfLinear_isLE_trans {α : Type} [LinearOrder α] {x y z : α}
    (h₁ : (cmpOfLinear x y).isLE = true) (h₂ : (cmpOfLinear y z).isLE = true) :
    (cmpOfLinear x z).isLE = true := by
  rw [cmpOfLinear_isLE_iff] at *
  exact le_trans h₁ h₂

theorem Ordering.then_eq {o p : Ordering} :
    o.then p = if o = .eq then p else o := by
  cases o <;> simp [Ordering.then]

/-! ## Data model (`emsqrt-core/src/types.rs`)

`Scalar` is the tagged union over null / bool / i32 / i64 / f32 / f64 / utf8 /
binary.  Integer payloads are `Int` (the claims under check do not involve
integer overflow), float payloads are `Flt` as explained above, strings are
Lean `String` (Rust compares UTF-8 strings byte-wise, which coincides with
code-point order, which is the order of Lean's `String` linear order), and
binary payloads are `List Nat` of bytes. -/

/-- Ordering-relevant model of an IEEE float: NaN, or a non-NaN value. -/
inductive Flt : Type where
  | nan : Flt
  | val (q : ℚ) : Flt
deriving DecidableEq, Repr

/-- `Scalar` from `emsqrt-core/src/types.rs`. -/
inductive Scalar : Type where
  | Null : Scalar
  | Bool (b : Bool) : Scalar
  | I32 (i : Int) : Scalar
  | I64 (i : Int) : Scalar
  | F32 (f : Flt) : Scalar
  | F64 (f : Flt) : Scalar
  | Str (s : String) : Scalar
  | Bin (bs : List Nat) : Scalar
deriving DecidableEq, Repr

instance : Inhabited Scalar := ⟨.Null⟩

/-- `Column` from `emsqrt-core/src/types.rs`. -/
structure Column : Type where
  name : String
  values : List Scalar
deriving DecidableEq, Repr

/-- `RowBatch` from `emsqrt-core/src/types.rs`. -/
structure RowBatch : Type where
  columns : List Column
deriving DecidableEq, Repr

/-- `RowBatch::num_rows`. -/
def RowBatch.num_rows (b : RowBatch) : Nat :=
  (b.columns.head?.map (fun c => c.values.length)).getD 0

/-- A well-formed batch: every column has `num_rows` values. -/
def RowBatch.Wf (b : RowBatch) : Prop :=
  ∀ c ∈ b.columns, c.values.length = b.num_rows

/-- `scalar_type_order` from `emsqrt-core/src/types.rs`: the variant tag. -/
def scalar_type_order (s : Scalar) : Nat :=
  match s with
  | .Null => 0
  | .Bool _ => 1
  | .I32 _ => 2
  | .I64 _ => 3
  | .F32 _ => 4
  | .F64 _ => 5
  | .Str _ => 6
  | .Bin _ => 7

/-- Comparison of two `Flt`s as `scalar_cmp` performs it: NaNs compare equal
to each other and greater than everything else; otherwise `partial_cmp`, which
on non-NaN values is the value order. -/
def cmpFlt (x y : Flt) : Ordering :=
  match x, y with
  | .nan, .nan => .eq
  | .nan, _ => .gt
  | _, .nan => .lt
  | .val a, .val b => cmpOfLinear a b

/-- Rust `Vec<u8>`/slice comparison: lexicographic, shorter prefix first. -/
def cmpBytes (x y : List Nat) : Ordering :=
  match x, y with
  | [], [] => .eq
  | [], _ :: _ => .lt
  | _ :: _, [] => .gt
  | a :: xs, b :: ys => (cmpOfLinear a b).then (cmpBytes xs ys)

/-- `scalar_cmp` from `emsqrt-core/src/types.rs`: nulls first, same variant by
natural order (NaN grouped at the top), distinct variants by tag order. -/
def scalar_cmp (a b : Scalar) : Ordering :=
  match a, b with
  | .Null, .Null => .eq
  | .Null, _ => .lt
  | _, .Null => .gt
  | .Bool x, .Bool y => cmpOfLinear x y
  | .I32 x, .I32 y => cmpOfLinear x y
  | .I64 x, .I64 y => cmpOfLinear x y
  | .F32 x, .F32 y => cmpFlt x y
  | .F64 x, .F64 y => cmpFlt x y
  | .Str x, .Str y => cmpOfLinear x y
  | .Bin x, .Bin y => cmpBytes x y
  | _, _ => cmpOfLinear (scalar_type_order a) (scalar_type_order b)

/-- `scalar_tuple_cmp` from `emsqrt-core/src/types.rs`: first non-equal
component wins, then the lengths are compared. -/
def scalar_tuple_cmp (a b : List Scalar) : Ordering :=
  match a, b with
  | [], [] => .eq
  | [], _ :: _ => .lt
  | _ :: _, [] => .gt
  | x :: xs, y :: ys => (scalar_cmp x y).then (scalar_tuple_cmp xs ys)

/-! ### Order-theoretic facts about the payload comparisons -/

theorem cmpFlt_refl (x : Flt) : cmpFlt x x = .eq := by
  cases x <;> simp [cmpFlt, cmpOfLinear_refl]

theorem cmpFlt_swap (x y : Flt) : cmpFlt x y = (cmpFlt y x).swap := by
  cases x <;> cases y
  · rfl
  · rfl
  · rfl
  · exact cmpOfLinear_swap _ _

theorem cmpFlt_eq_iff (x y : Flt) : cmpFlt x y = .eq ↔ x = y := by
  cases x <;> cases y <;> simp [cmpFlt, cmpOfLinear_eq_iff]

theorem cmpFlt_isLE_trans {x y z : Flt}
    (h₁ : (cmpFlt x y).isLE = true) (h₂ : (cmpFlt y z).isLE = true) :
    (cmpFlt x z).isLE = true := by
  cases x <;> cases y <;> cases z <;>
    simp_all [cmpFlt, Ordering.isLE] <;>
    exact cmpOfLinear_isLE_trans h₁ h₂

theorem cmpBytes_refl (x : List Nat) : cmpBytes x x = .eq := by
  induction x with
  | nil => rfl
  | cons a xs ih => simp [cmpBytes, cmpOfLinear_refl, Ordering.then, ih]

theorem cmpBytes_swap (x y : List Nat) : cmpBytes x y = (cmpBytes y x).swap := by
  induction x generalizing y with
  | nil => cases y <;> simp [cmpBytes, Ordering.swap]
  | cons a xs ih =>
    cases y with
    | nil => simp [cmpBytes, Ordering.swap]
    | cons b ys =>
      simp only [cmpBytes]
      rw [cmpOfLinear_swap, ih]
      cases cmpOfLinear b a <;> cases cmpBytes ys xs <;>
        simp [Ordering.swap, Ordering.then]

theorem cmpBytes_eq_iff (x y : List Nat) : cmpBytes x y = .eq ↔ x = y := by
  induction x generalizing y with
  | nil => cases y <;> simp [cmpBytes]
  | cons a xs ih =>
    cases y with
    | nil => simp [cmpBytes]
    | cons b ys =>
      simp only [cmpBytes, Ordering.then_eq]
      by_cases h : cmpOfLinear a b = .eq
      · have hab := (cmpOfLinear_eq_iff a b).mp h
        subst hab
        simp [h, ih]
      · have : a ≠ b := fun hh => h ((cmpOfLinear_eq_iff a b).mpr hh)
        simp [h, this]

theorem cmpBytes_isLE_trans {x y z : List Nat}
    (h₁ : (cmpBytes x y).isLE = true) (h₂ : (cmpBytes y z).isLE = true) :
    (cmpBytes x z).isLE = true := by
  induction x generalizing y z with
  | nil => cases z <;> simp [cmpBytes, Ordering.isLE]
  | cons a xs ih =>
    cases y with
    | nil => simp [cmpBytes, Ordering.isLE] at h₁
    | cons b ys =>
      cases z with
      | nil => simp [cmpBytes, Ordering.isLE] at h₂
      | cons c zs =>
        simp only [cmpBytes, Ordering.then_eq] at h₁ h₂ ⊢
        by_cases hab : cmpOfLinear a b = .eq
        · have hab' := (cmpOfLinear_eq_iff a b).mp hab
          by_cases hbc : cmpOfLinear b c = .eq
          · have hbc' := (cmpOfLinear_eq_iff b c).mp hbc
            subst hab' hbc'
            simp_all [cmpOfLinear_refl]
            exact ih h₁ h₂
          · subst hab'
            simp_all [hbc]
        · by_cases hbc : cmpOfLinear b c = .eq
          · have hbc' := (cmpOfLinear_eq_iff b c).mp hbc
            subst hbc'
            simp_all [hab]
          · simp only [hab, if_neg, hbc, if_neg] at h₁ h₂
            have hac : (cmpOfLinear a c).isLE = true := cmpOfLinear_isLE_trans h₁ h₂
            have hac' : cmpOfLinear a c ≠ .eq := by
              intro he
              have : a = c := (cmpOfLinear_eq_iff a c).mp he
              subst this
              -- a ≤ b and b ≤ a but neither cmp is eq: contradiction
              have h1 : a ≤ b := (cmpOfLinear_isLE_iff a b).mp h₁
              have h2 : b ≤ a := (cmpOfLinear_isLE_iff b a).mp h₂
              exact hab ((cmpOfLinear_eq_iff a b).mpr (le_antisymm h1 h2))
            simp [hac', hac]

/-! ### `scalar_cmp` is a total ordering -/

theorem scalar_cmp_refl (a : Scalar) : scalar_cmp a a = .eq := by
  cases a <;>
    simp [scalar_cmp, cmpOfLinear_refl, cmpFlt_refl, cmpBytes_refl]

theorem scalar_cmp_swap (a b : Scalar) : scalar_cmp a b = (scalar_cmp b a).swap := by
  cases a <;> cases b <;>
    first
    | rfl
    | exact cmpOfLinear_swap _ _
    | exact cmpFlt_swap _ _
    | exact cmpBytes_swap _ _

theorem scalar_cmp_eq_iff (a b : Scalar) : scalar_cmp a b = .eq ↔ a = b := by
  cases a <;> cases b <;>
    simp [scalar_cmp, cmpOfLinear_eq_iff, cmpFlt_eq_iff, cmpBytes_eq_iff,
      scalar_type_order]

theorem scalar_cmp_isLE_trans {a b c : Scalar}
    (h₁ : (scalar_cmp a b).isLE = true) (h₂ : (scalar_cmp b c).isLE = true) :
    (scalar_cmp a c).isLE = true := by
  cases a <;> cases b <;> cases c <;>
    first
    | rfl
    | exact Bool.noConfusion h₁
    | exact Bool.noConfusion h₂
    | exact cmpOfLinear_isLE_trans h₁ h₂
    | exact cmpFlt_isLE_trans h₁ h₂
    | exact cmpBytes_isLE_trans h₁ h₂

theorem isLE_or_swap_isLE {o p : Ordering} (h : o = p.swap) :
    o.isLE = true ∨ p.isLE = true := by
  cases p <;> simp_all [Ordering.swap, Ordering.isLE]

theorem scalar_cmp_isLE_total (a b : Scalar) :
    (scalar_cmp a b).isLE = true ∨ (scalar_cmp b a).isLE = true :=
  isLE_or_swap_isLE (scalar_cmp_swap a b)

theorem scalar_cmp_tag_ne {a b : Scalar}
    (h : scalar_type_order a ≠ scalar_type_order b) :
    scalar_cmp a b = cmpOfLinear (scalar_type_order a) (scalar_type_order b) := by
  cases a <;> cases b <;> first | rfl | exact absurd rfl h

/-! ### Tuple comparison lemmas -/

theorem scalar_tuple_cmp_refl (a : List Scalar) : scalar_tuple_cmp a a = .eq := by
  induction a with
  | nil => rfl
  | cons x xs ih => simp [scalar_tuple_cmp, scalar_cmp_refl, Ordering.then, ih]

theorem scalar_tuple_cmp_swap (a b : List Scalar) :
    scalar_tuple_cmp a b = (scalar_tuple_cmp b a).swap := by
  induction a generalizing b with
  | nil => cases b <;> simp [scalar_tuple_cmp, Ordering.swap]
  | cons x xs ih =>
    cases b with
    | nil => simp [scalar_tuple_cmp, Ordering.swap]
    | cons y ys =>
      simp only [scalar_tuple_cmp]
      rw [scalar_cmp_swap, ih]
      cases scalar_cmp y x <;> cases scalar_tuple_cmp ys xs <;>
        simp [Ordering.swap, Ordering.then]

theorem scalar_tuple_cmp_eq_iff (a b : List Scalar) :
    scalar_tuple_cmp a b = .eq ↔ a = b := by
  induction a generalizing b with
  | nil => cases b <;> simp [scalar_tuple_cmp]
  | cons x xs ih =>
    cases b with
    | nil => simp [scalar_tuple_cmp]
    | cons y ys =>
      simp only [scalar_tuple_cmp, Ordering.then_eq]
      by_cases h : scalar_cmp x y = .eq
      · have hxy := (scalar_cmp_eq_iff x y).mp h
        subst hxy
        simp [h, ih]
      · have : x ≠ y := fun hh => h ((scalar_cmp_eq_iff x y).mpr hh)
        simp [h, this]

theorem scalar_tuple_cmp_isLE_trans {a b c : List Scalar}
    (h₁ : (scalar_tuple_cmp a b).isLE = true)
    (h₂ : (scalar_tuple_cmp b c).isLE = true) :
    (scalar_tuple_cmp a c).isLE = true := by
  induction a generalizing b c with
  | nil => cases c <;> simp [scalar_tuple_cmp, Ordering.isLE]
  | cons x xs ih =>
    cases b with
    | nil => simp [scalar_tuple_cmp, Ordering.isLE] at h₁
    | cons y ys =>
      cases c with
      | nil => simp [scalar_tuple_cmp, Ordering.isLE] at h₂
      | cons z zs =>
        simp only [scalar_tuple_cmp, Ordering.then_eq] at h₁ h₂ ⊢
        by_cases hxy : scalar_cmp x y = .eq
        · have hxy' := (scalar_cmp_eq_iff x y).mp hxy
          by_cases hyz : scalar_cmp y z = .eq
          · have hyz' := (scalar_cmp_eq_iff y z).mp hyz
            subst hxy' hyz'
            simp_all [scalar_cmp_refl]
            exact ih h₁ h₂
          · subst hxy'
            simp_all [hyz]
        · by_cases hyz : scalar_cmp y z = .eq
          · have hyz' := (scalar_cmp_eq_iff y z).mp hyz
            subst hyz'
            simp_all [hxy]
          · simp only [hxy, if_neg, hyz, if_neg] at h₁ h₂
            have hxz : (scalar_cmp x z).isLE = true := scalar_cmp_isLE_trans h₁ h₂
            have hxz' : scalar_cmp x z ≠ .eq := by
              intro he
              have hline : x = z := (scalar_cmp_eq_iff x z).mp he
              subst hline
              have h2s : scalar_cmp y x = (scalar_cmp x y).swap := scalar_cmp_swap y x
              cases hc : scalar_cmp x y <;> simp_all [Ordering.swap, Ordering.isLE]
            simp [hxz', hxz]

theorem scalar_tuple_cmp_isLE_total (a b : List Scalar) :
    (scalar_tuple_cmp a b).isLE = true ∨ (scalar_tuple_cmp b a).isLE = true :=
  isLE_or_swap_isLE (scalar_tuple_cmp_swap a b)

/-- C5: the `Scalar` comparison is a total ordering: reflexive, antisymmetric
(`eq` exactly on equal model values), transitive and total on `isLE`; `Null`
compares less than every non-null value; two distinct non-null variants are
ordered by the variant-tag order `Null < Bool < I32 < I64 < F32 < F64 < Str <
Bin`; values of the same variant are ordered naturally; and NaN floats compare
greater than every non-NaN value of the same float type and equal to each
other. -/
theorem C5_scalar_cmp_total_ordering :
    (∀ a : Scalar, scalar_cmp a a = .eq)
    ∧ (∀ a b : Scalar, scalar_cmp a b = (scalar_cmp b a).swap)
    ∧ (∀ a b : Scalar, scalar_cmp a b = .eq ↔ a = b)
    ∧ (∀ a b c : Scalar, (scalar_cmp a b).isLE = true →
        (scalar_cmp b c).isLE = true → (scalar_cmp a c).isLE = true)
    ∧ (∀ a b : Scalar, (scalar_cmp a b).isLE = true ∨ (scalar_cmp b a).isLE = true)
    ∧ (∀ a : Scalar, a ≠ .Null → scalar_cmp .Null a = .lt)
    ∧ (∀ a b : Scalar, scalar_type_order a ≠ scalar_type_order b →
        scalar_cmp a b = cmpOfLinear (scalar_type_order a) (scalar_type_order b))
    ∧ (∀ x y : Bool, scalar_cmp (.Bool x) (.Bool y) = cmpOfLinear x y)
    ∧ (∀ x y : Int, scalar_cmp (.I32 x) (.I32 y) = cmpOfLinear x y
        ∧ scalar_cmp (.I64 x) (.I64 y) = cmpOfLinear x y)
    ∧ (∀ x y : String, scalar_cmp (.Str x) (.Str y) = cmpOfLinear x y)
    ∧ (∀ x y : List Nat, scalar_cmp (.Bin x) (.Bin y) = cmpBytes x y)
    ∧ (∀ x y : ℚ, scalar_cmp (.F32 (.val x)) (.F32 (.val y)) = cmpOfLinear x y
        ∧ scalar_cmp (.F64 (.val x)) (.F64 (.val y)) = cmpOfLinear x y)
    ∧ (∀ q : ℚ, scalar_cmp (.F32 .nan) (.F32 (.val q)) = .gt
        ∧ scalar_cmp (.F64 .nan) (.F64 (.val q)) = .gt)
    ∧ (scalar_cmp (.F32 .nan) (.F32 .nan) = .eq
        ∧ scalar_cmp (.F64 .nan) (.F64 .nan) = .eq) := by
  refine ⟨scalar_cmp_refl, scalar_cmp_swap, scalar_cmp_eq_iff,
    fun _ _ _ => scalar_cmp_isLE_trans, scalar_cmp_isLE_total,
    ?_, fun _ _ h => scalar_cmp_tag_ne h,
    fun _ _ => rfl, fun _ _ => ⟨rfl, rfl⟩, fun _ _ => rfl, fun _ _ => rfl,
    fun _ _ => ⟨rfl, rfl⟩, fun _ => ⟨rfl, rfl⟩, rfl, rfl⟩
  intro a ha
  cases a <;> first | exact absurd rfl ha | rfl

/-- Witness for C5: the transitivity and null-first components applied at
concrete scalars. -/
theorem C5_scalar_cmp_total_ordering_witness :
    (scalar_cmp (.I32 1) (.I32 3)).isLE = true
    ∧ scalar_cmp .Null (.Str "x") = .lt :=
  ⟨C5_scalar_cmp_total_ordering.2.2.2.1 (.I32 1) (.I32 2) (.I32 3)
      (by decide) (by decide),
    C5_scalar_cmp_total_ordering.2.2.2.2.2.1 (.Str "x") (by decide)⟩

/-! ## `RowBatch::sort_by_columns` (`emsqrt-core/src/types.rs`)

The source builds the vector of `(sort_key_tuple, original_index)` pairs,
sorts it with `slice::sort_by` under `scalar_tuple_cmp` on the tuples alone
(`sort_by` is a stable sort, embedded as `List.mergeSort` on `Ordering.isLE`
of the comparator), and reorders every column by the resulting index
permutation. -/

/-- Default column used by the `getD` embeddings of Rust's panicking index
operator; well-formedness hypotheses keep every access in range. -/
def defCol : Column := ⟨"", []⟩

/-- Positions of the sort-key columns, `None` if any key is missing. -/
def keyIndices (b : RowBatch) (keys : List String) : Option (List Nat) :=
  keys.mapM (fun key => b.columns.findIdx? (fun c => c.name = key))

/-- Sort-key tuple of row `r` (the source's `sort_tuple`). -/
def keyTuple (b : RowBatch) (kidx : List Nat) (r : Nat) : List Scalar :=
  kidx.map (fun ci => (b.columns.getD ci defCol).values.getD r .Null)

/-- Comparator passed to the stable sort: `scalar_tuple_cmp` on the tuple
component only. -/
def pairLE (p q : List Scalar × Nat) : Bool :=
  (scalar_tuple_cmp p.1 q.1).isLE

/-- `RowBatch::sort_by_columns`. -/
def RowBatch.sort_by_columns (b : RowBatch) (sort_keys : List String) :
    Except String RowBatch :=
  if b.num_rows = 0 then .ok b
  else
    match keyIndices b sort_keys with
    | none => .error "sort key column not found"
    | some kidx =>
      let pairs := (List.range b.num_rows).map (fun r => (keyTuple b kidx r, r))
      let sorted := pairs.mergeSort pairLE
      .ok ⟨b.columns.map (fun c =>
        ⟨c.name, sorted.map (fun p => c.values.getD p.2 .Null)⟩)⟩

/-- Row `r` of a batch, as the list of the column values at `r`. -/
def rowAt (b : RowBatch) (r : Nat) : List Scalar :=
  b.columns.map (fun c => c.values.getD r .Null)

/-- All rows of a batch in order. -/
def RowBatch.rows (b : RowBatch) : List (List Scalar) :=
  (List.range b.num_rows).map (rowAt b)

/-- Restriction of a row to the key-column positions. -/
def selectAt (kidx : List Nat) (row : List Scalar) : List Scalar :=
  kidx.map (fun ci => row.getD ci .Null)

/-! ### Facts feeding the sort-correctness claim -/

theorem pairLE_trans :
    ∀ (p q r : List Scalar × Nat), pairLE p q = true → pairLE q r = true →
      pairLE p r = true :=
  fun _ _ _ h₁ h₂ => scalar_tuple_cmp_isLE_trans h₁ h₂

theorem pairLE_total : ∀ (p q : List Scalar × Nat),
    (pairLE p q || pairLE q p) = true := by
  intro p q
  rcases scalar_tuple_cmp_isLE_total p.1 q.1 with h | h <;>
    simp [pairLE, h]

theorem pair_sublist_range {i j n : Nat} (hij : i < j) (hj : j < n) :
    List.Sublist [i, j] (List.range n) := by
  induction n with
  | zero => omega
  | succ m ih =>
    rw [List.range_succ]
    by_cases hjm : j < m
    · exact (ih hjm).trans (List.sublist_append_left _ _)
    · have hj' : j = m := by omega
      subst hj'
      have h1 : List.Sublist [i] (List.range j) :=
        List.singleton_sublist.mpr (List.mem_range.mpr hij)
      exact h1.append (List.Sublist.refl [j])

theorem map_range_getD {α : Type} (σ : List Nat) (g : Nat → α) :
    (List.range σ.length).map (fun r => g (σ.getD r 0)) = σ.map g := by
  apply List.ext_getElem
  · simp
  · intro i h₁ h₂
    simp only [List.getElem_map, List.getElem_range]
    congr 1
    have hi : i < σ.length := by simpa using h₂
    simp [List.getD_eq_getElem?_getD, List.getElem?_eq_getElem hi]

theorem selectAt_rowAt (b : RowBatch) (kidx : List Nat) (r : Nat) :
    selectAt kidx (rowAt b r) = keyTuple b kidx r := by
  unfold selectAt rowAt keyTuple
  apply List.map_congr_left
  intro ci _
  cases h : b.columns[ci]? with
  | none => simp [h, defCol, List.getD_eq_getElem?_getD, List.getElem?_map]
  | some c => simp [h, List.getD_eq_getElem?_getD, List.getElem?_map]

/-- Core correctness of `RowBatch::sort_by_columns` (shared by the
external-sort claim, whose both paths sort through it): for every batch and
every key set naming columns of the batch it returns a batch holding the
same multiset of rows, ordered by the key columns under the `Scalar` total
ordering, and stable — the output is the input reordered by a permutation
`σ` of the row indices that keeps equal-key rows in input order. -/
theorem sort_by_columns_spec (b : RowBatch) (keys : List String)
    (kidx : List Nat) (hk : keyIndices b keys = some kidx) :
    ∃ out σ,
      b.sort_by_columns keys = .ok out
      ∧ σ.Perm (List.range b.num_rows)
      ∧ RowBatch.rows out = σ.map (rowAt b)
      ∧ (RowBatch.rows out).Perm (RowBatch.rows b)
      ∧ out.columns.map Column.name = b.columns.map Column.name
      ∧ List.Pairwise
          (fun r s => (scalar_tuple_cmp (selectAt kidx r) (selectAt kidx s)).isLE = true)
          (RowBatch.rows out)
      ∧ ∀ i j, i < j → j < b.num_rows →
          scalar_tuple_cmp (keyTuple b kidx i) (keyTuple b kidx j) = .eq →
          List.Sublist [i, j] σ := by
  by_cases hn : b.num_rows = 0
  · refine ⟨b, [], ?_, ?_, ?_, List.Perm.refl _, rfl, ?_, ?_⟩
    · unfold RowBatch.sort_by_columns; rw [if_pos hn]
    · rw [hn]; simp
    · simp [RowBatch.rows, hn]
    · simp [RowBatch.rows, hn]
    · intro i j _ hjn _; omega
  · set pairs := (List.range b.num_rows).map (fun r => (keyTuple b kidx r, r)) with hpairs
    set sorted := pairs.mergeSort pairLE with hsorted
    set σ := sorted.map Prod.snd with hσdef
    set out : RowBatch :=
      ⟨b.columns.map (fun c => ⟨c.name, sorted.map (fun p => c.values.getD p.2 .Null)⟩)⟩
      with hout
    have heq : b.sort_by_columns keys = .ok out := by
      unfold RowBatch.sort_by_columns
      rw [if_neg hn, hk]
    have hperm_pairs : sorted.Perm pairs := List.mergeSort_perm pairs pairLE
    have hpairs_snd : pairs.map Prod.snd = List.range b.num_rows := by
      rw [hpairs, List.map_map]
      show List.map (fun r : Nat => r) (List.range b.num_rows) = List.range b.num_rows
      exact List.map_id' _
    have hσ : σ.Perm (List.range b.num_rows) := by
      have h := hperm_pairs.map Prod.snd
      rwa [hpairs_snd] at h
    have hlen_sorted : sorted.length = b.num_rows := by
      simp [hsorted, hpairs]
    have hσlen : σ.length = sorted.length := by simp [hσdef]
    have hcols_ne : b.columns ≠ [] := by
      intro hcc
      exact hn (by simp [RowBatch.num_rows, hcc])
    have hnum_out : out.num_rows = σ.length := by
      cases hc : b.columns with
      | nil => exact absurd hc hcols_ne
      | cons c cs => simp [hout, RowBatch.num_rows, hc, hσdef]
    have hpt : ∀ r ∈ List.range σ.length, rowAt out r = rowAt b (σ.getD r 0) := by
      intro r hr
      have hrlt : r < sorted.length := by
        rw [← hσlen]; simpa using hr
      unfold rowAt
      rw [hout]
      simp only [List.map_map]
      apply List.map_congr_left
      intro c _
      simp [Function.comp, List.getD_eq_getElem?_getD, List.getElem?_map, hσdef,
        List.getElem?_eq_getElem hrlt]
    have hrows_out : RowBatch.rows out = σ.map (rowAt b) := by
      unfold RowBatch.rows
      rw [hnum_out, List.map_congr_left hpt, map_range_getD]
    have hrows_perm : (RowBatch.rows out).Perm (RowBatch.rows b) := by
      rw [hrows_out]
      unfold RowBatch.rows
      exact hσ.map (rowAt b)
    have hnames : out.columns.map Column.name = b.columns.map Column.name := by
      simp [hout, List.map_map, Function.comp]
    have hsortedP : List.Pairwise (fun p q => pairLE p q = true) sorted :=
      List.sorted_mergeSort pairLE_trans pairLE_total pairs
    have hmem_fst : ∀ p ∈ sorted, p.1 = keyTuple b kidx p.2 := by
      intro p hp
      have hp' : p ∈ pairs := (List.mem_mergeSort).mp hp
      rw [hpairs] at hp'
      obtain ⟨r, _, rfl⟩ := List.mem_map.mp hp'
      rfl
    have hpw : List.Pairwise
        (fun r s => (scalar_tuple_cmp (selectAt kidx r) (selectAt kidx s)).isLE = true)
        (RowBatch.rows out) := by
      rw [hrows_out]
      rw [List.pairwise_map]
      simp only [selectAt_rowAt]
      rw [hσdef, List.pairwise_map]
      refine hsortedP.imp_of_mem ?_
      intro p q hp hq hle
      rw [← hmem_fst p hp, ← hmem_fst q hq]
      exact hle
    refine ⟨out, σ, heq, hσ, hrows_out, hrows_perm, hnames, hpw, ?_⟩
    intro i j hij hjn hcmpeq
    have h1 : List.Sublist [(keyTuple b kidx i, i), (keyTuple b kidx j, j)] pairs := by
      have := (pair_sublist_range hij hjn).map (fun r => (keyTuple b kidx r, r))
      simpa [hpairs] using this
    have hle : pairLE (keyTuple b kidx i, i) (keyTuple b kidx j, j) = true := by
      simp [pairLE, hcmpeq, Ordering.isLE]
    have h2 := List.pair_sublist_mergeSort pairLE_trans pairLE_total hle h1
    have h3 := h2.map Prod.snd
    simpa [hσdef] using h3


/-! ## k-way merge of `ExternalSort` (`emsqrt-operators/src/sort/external.rs`)

The merge keeps a `std::collections::BinaryHeap<MergeEntry>` whose `Ord`
compares only the reversed sort tuples (`compare_scalar_tuples(&other, &self)`)
— `run_idx` does not participate.  The heap is embedded exactly as Rust's
binary heap: `push` is `sift_up`, `pop` swaps the last element into the root
and runs `sift_down_to_bottom` (walk the hole to the bottom always taking the
greater child, preferring the right child on ties, then sift up).  Fuel
arguments keep the recursions structural; every call site supplies enough
fuel for the loops to run to completion. -/

/-- Float comparison used by the merge's `compare_scalars`:
`partial_cmp(..).unwrap_or(Equal)`, so any NaN compares `Equal`. -/
def fltCmpUnwrapEq (x y : Flt) : Ordering :=
  match x, y with
  | .val a, .val b => cmpOfLinear a b
  | _, _ => .eq

/-- `compare_scalars` from `sort/external.rs` (the simplified merge
comparator): no NaN handling, mixed variants treated as equal. -/
def compare_scalars (a b : Scalar) : Ordering :=
  match a, b with
  | .Null, .Null => .eq
  | .Null, _ => .lt
  | _, .Null => .gt
  | .Bool x, .Bool y => cmpOfLinear x y
  | .I32 x, .I32 y => cmpOfLinear x y
  | .I64 x, .I64 y => cmpOfLinear x y
  | .F32 x, .F32 y => fltCmpUnwrapEq x y
  | .F64 x, .F64 y => fltCmpUnwrapEq x y
  | .Str x, .Str y => cmpOfLinear x y
  | .Bin x, .Bin y => cmpBytes x y
  | _, _ => .eq

/-- `compare_scalar_tuples` from `sort/external.rs`. -/
def compare_scalar_tuples (a b : List Scalar) : Ordering :=
  match a, b with
  | [], [] => .eq
  | [], _ :: _ => .lt
  | _ :: _, [] => .gt
  | x :: xs, y :: ys => (compare_scalars x y).then (compare_scalar_tuples xs ys)

/-- `MergeEntry` from `sort/external.rs`. -/
structure MergeEntry : Type where
  sort_tuple : List Scalar
  run_idx : Nat
  row_idx : Nat
deriving DecidableEq, Repr

instance : Inhabited MergeEntry := ⟨⟨[], 0, 0⟩⟩

/-- `Ord for MergeEntry`: the reversed tuple comparison (min-heap through a
max-heap); `run_idx` and `row_idx` are ignored. -/
def mergeEntryCmp (x y : MergeEntry) : Ordering :=
  compare_scalar_tuples y.sort_tuple x.sort_tuple

/-- Rust `<=` on `MergeEntry` (via its `Ord`). -/
def heapLe (x y : MergeEntry) : Bool :=
  (mergeEntryCmp x y).isLE

/-- Rust `BinaryHeap::sift_up`: move the hole toward the root while the new
element is greater than the parent; place the element at the final hole. -/
def siftUpGo (elem : MergeEntry) (data : List MergeEntry) (start pos fuel : Nat) :
    List MergeEntry :=
  match fuel with
  | 0 => data.set pos elem
  | fuel + 1 =>
    if start < pos then
      let parent := (pos - 1) / 2
      let pv := data.getD parent default
      if heapLe elem pv then data.set pos elem
      else siftUpGo elem (data.set pos pv) start parent fuel
    else data.set pos elem

/-- Rust `BinaryHeap::push`. -/
def heapPush (data : List MergeEntry) (item : MergeEntry) : List MergeEntry :=
  siftUpGo item (data ++ [item]) 0 data.length (data.length + 1)

/-- Walking loop of Rust `sift_down_to_bottom`: returns the data after the
hole reached the bottom, and the hole's final position. -/
def siftDownGo (data : List MergeEntry) (pos fuel endd : Nat) :
    List MergeEntry × Nat :=
  match fuel with
  | 0 => (data, pos)
  | fuel + 1 =>
    let child := 2 * pos + 1
    if child + 1 < endd then
      let child :=
        if heapLe (data.getD child default) (data.getD (child + 1) default)
        then child + 1 else child
      siftDownGo (data.set pos (data.getD child default)) child fuel endd
    else
      if child = endd - 1 then (data.set pos (data.getD child default), child)
      else (data, pos)

/-- Rust `BinaryHeap::sift_down_to_bottom`. -/
def siftDownToBottom (data : List MergeEntry) (pos : Nat) : List MergeEntry :=
  let elem := data.getD pos default
  let dp := siftDownGo data pos data.length data.length
  siftUpGo elem dp.1 pos dp.2 dp.1.length

/-- Rust `BinaryHeap::pop`: take the last element, swap it with the root,
sift the root down. -/
def heapPop (data : List MergeEntry) : Option (MergeEntry × List MergeEntry) :=
  match data.getLast? with
  | none => none
  | some item =>
    let rest := data.dropLast
    if rest.isEmpty then some (item, rest)
    else some (rest.getD 0 default, siftDownToBottom (rest.set 0 item) 0)

/-- `extract_sort_tuple` from `sort/external.rs`. -/
def extract_sort_tuple (batch : RowBatch) (row_idx : Nat) (sort_keys : List String) :
    Except String (List Scalar) :=
  sort_keys.mapM (fun key =>
    match batch.columns.find? (fun c => c.name = key) with
    | some col => Except.ok (col.values.getD row_idx .Null)
    | none => Except.error "sort key not found")

/-- Heap seeding loop of `k_way_merge`: one entry per non-empty run. -/
def initHeap (run_batches : List RowBatch) (sort_keys : List String) :
    Except String (List MergeEntry) :=
  run_batches.enum.foldlM (fun heap rb =>
    if 0 < rb.2.num_rows then do
      let t ← extract_sort_tuple rb.2 0 sort_keys
      pure (heapPush heap ⟨t, rb.1, 0⟩)
    else pure heap) []

/-- Append the current entry's row to the output columns: the source walks the
run's columns and pushes into `output_cols[col_idx]` when the index is in
range; output columns beyond the run's column count stay unchanged. -/
def appendRow (outCols : List Column) (batch : RowBatch) (row : Nat) : List Column :=
  (outCols.zip batch.columns).map
      (fun oc => ⟨oc.1.name, oc.1.values ++ [oc.2.values.getD row .Null]⟩)
    ++ outCols.drop batch.columns.length

/-- Merge loop of `k_way_merge`: pop the smallest entry, emit its row, advance
that run's cursor.  `fuel` bounds the iterations; the callers pass the total
row count, which the loop never exceeds. -/
def mergeLoop (rbs : List RowBatch) (keys : List String) :
    Nat → List MergeEntry → List Column → Except String (List Column)
  | 0, heap, outCols =>
    match heapPop heap with
    | none => .ok outCols
    | some _ => .error "merge loop fuel exhausted"
  | fuel + 1, heap, outCols =>
    match heapPop heap with
    | none => .ok outCols
    | some ep =>
      let batch := rbs.getD ep.1.run_idx ⟨[]⟩
      let outCols := appendRow outCols batch ep.1.row_idx
      let next_row := ep.1.row_idx + 1
      if next_row < batch.num_rows then do
        let t ← extract_sort_tuple batch next_row keys
        mergeLoop rbs keys fuel (heapPush ep.2 ⟨t, ep.1.run_idx, next_row⟩) outCols
      else mergeLoop rbs keys fuel ep.2 outCols

/-- `k_way_merge` from `sort/external.rs`, applied to the run batches the
source reads back from the spill manager (reading an intact segment returns
the written batch, so the merge itself is the content under test). -/
def k_way_merge_batches (run_batches : List RowBatch) (sort_keys : List String) :
    Except String RowBatch :=
  if run_batches.isEmpty then .error "no runs to merge"
  else do
    let heap ← initHeap run_batches sort_keys
    let template := run_batches.getD 0 ⟨[]⟩
    let outCols := template.columns.map (fun c => (⟨c.name, []⟩ : Column))
    let cols ← mergeLoop run_batches sort_keys
      ((run_batches.map RowBatch.num_rows).sum + 1) heap outCols
    .ok ⟨cols⟩

theorem fltCmpUnwrapEq_refl (x : Flt) : fltCmpUnwrapEq x x = .eq := by
  cases x
  · rfl
  · exact cmpOfLinear_refl _

theorem compare_scalars_refl (a : Scalar) : compare_scalars a a = .eq := by
  cases a <;>
    simp [compare_scalars, cmpOfLinear_refl, cmpBytes_refl, fltCmpUnwrapEq_refl]

theorem compare_scalar_tuples_refl (t : List Scalar) :
    compare_scalar_tuples t t = .eq := by
  induction t with
  | nil => rfl
  | cons x xs ih =>
    simp [compare_scalar_tuples, compare_scalars_refl, Ordering.then, ih]

/-- C4 counterexample: with two runs whose current rows have equal sort keys,
the merge emits the row of run 1 (`"b0"`) before the remaining equal-key row
of run 0 (`"a1"`): the output value column is `["a0", "b0", "a1"]`, not the
run-index-stable `["a0", "a1", "b0"]`. -/
theorem C4_merge_tie_break_counterexample :
    k_way_merge_batches
        [⟨[⟨"k", [.I64 0, .I64 0]⟩, ⟨"v", [.Str "a0", .Str "a1"]⟩]⟩,
          ⟨[⟨"k", [.I64 0]⟩, ⟨"v", [.Str "b0"]⟩]⟩] ["k"]
      = .ok ⟨[⟨"k", [.I64 0, .I64 0, .I64 0]⟩,
          ⟨"v", [.Str "a0", .Str "b0", .Str "a1"]⟩]⟩
    ∧ k_way_merge_batches
        [⟨[⟨"k", [.I64 0, .I64 0]⟩, ⟨"v", [.Str "a0", .Str "a1"]⟩]⟩,
          ⟨[⟨"k", [.I64 0]⟩, ⟨"v", [.Str "b0"]⟩]⟩] ["k"]
      ≠ .ok ⟨[⟨"k", [.I64 0, .I64 0, .I64 0]⟩,
          ⟨"v", [.Str "a0", .Str "a1", .Str "b0"]⟩]⟩ := by
  refine ⟨rfl, ?_⟩
  intro hcontra
  rw [show k_way_merge_batches
        [⟨[⟨"k", [.I64 0, .I64 0]⟩, ⟨"v", [.Str "a0", .Str "a1"]⟩]⟩,
          ⟨[⟨"k", [.I64 0]⟩, ⟨"v", [.Str "b0"]⟩]⟩] ["k"]
      = .ok ⟨[⟨"k", [.I64 0, .I64 0, .I64 0]⟩,
          ⟨"v", [.Str "a0", .Str "b0", .Str "a1"]⟩]⟩ from rfl] at hcontra
  injection hcontra with h2
  exact absurd h2 (by decide)

/-- C4 amended: the heap order of `MergeEntry` compares only the sort tuples
— `run_idx` never participates — so two entries with equal tuples compare
`Equal` in both directions, and ties between runs are popped in the heap's
internal order rather than by ascending run index (the counterexample above
shows a larger run index popped first). -/
theorem C4_merge_entry_cmp_ignores_run_idx (x y : MergeEntry)
    (h : x.sort_tuple = y.sort_tuple) :
    mergeEntryCmp x y = .eq ∧ heapLe x y = true ∧ heapLe y x = true := by
  have hxy : mergeEntryCmp x y = .eq := by
    unfold mergeEntryCmp
    rw [h]
    exact compare_scalar_tuples_refl _
  have hyx : mergeEntryCmp y x = .eq := by
    unfold mergeEntryCmp
    rw [h]
    exact compare_scalar_tuples_refl _
  exact ⟨hxy, by simp [heapLe, hxy, Ordering.isLE], by simp [heapLe, hyx, Ordering.isLE]⟩

/-- Witness for the C4 amended theorem at entries that differ in `run_idx`
and `row_idx` but share a tuple. -/
theorem C4_merge_entry_cmp_ignores_run_idx_witness :
    mergeEntryCmp ⟨[.I64 0], 0, 1⟩ ⟨[.I64 0], 5, 7⟩ = .eq
    ∧ heapLe ⟨[.I64 0], 0, 1⟩ ⟨[.I64 0], 5, 7⟩ = true
    ∧ heapLe ⟨[.I64 0], 5, 7⟩ ⟨[.I64 0], 0, 1⟩ = true :=
  C4_merge_entry_cmp_ignores_run_idx ⟨[.I64 0], 0, 1⟩ ⟨[.I64 0], 5, 7⟩ (by decide)

/-! ## Memory budget (`emsqrt-mem/src/guard.rs`)

The budget is an atomic `usize` counter with CAS acquire and `fetch_sub`
release.  Sequentially consistent histories of the atomics linearize to
sequences of the three operations, so the model is a state machine over
command lists: `acquire bytes`, `drop g`, `resize g new_bytes`, where `g`
indexes the guard produced by the `g`-th acquisition.  Rust's affine guard
values cannot be dropped twice; a `drop`/`resize` of a dead index is a no-op
in the model.  `usize` arithmetic is explicit: `saturating_add` on acquire,
wrapping `fetch_sub` on release. -/

def USIZE_MAX : Nat := 2 ^ 64 - 1

/-- Rust `usize::saturating_add`. -/
def satAdd (a b : Nat) : Nat := min (a + b) USIZE_MAX

/-- Rust wrapping subtraction on `usize` (`fetch_sub`), for `a < 2 ^ 64`. -/
def wrapSub (a b : Nat) : Nat := (a + 2 ^ 64 - b % 2 ^ 64) % 2 ^ 64

/-- Shared budget state plus the book-keeping of live guards: entry `g` is
`some b` while the guard from the `g`-th acquisition is live and holds `b`
bytes. -/
structure BudgetState : Type where
  capacity : Nat
  used : Nat
  guards : List (Option Nat)
deriving DecidableEq, Repr

/-- `BudgetInner::try_acquire`: one CAS round (`saturating_add`, reject when
above capacity).  The retry loop only re-runs this round, so in the
sequential interleaving model a single round decides. -/
def inner_try_acquire (capacity used bytes : Nat) : Bool × Nat :=
  let next := satAdd used bytes
  if capacity < next then (false, used) else (true, next)

/-- `BudgetInner::release` (`fetch_sub`). -/
def inner_release (used bytes : Nat) : Nat := wrapSub used bytes

/-- `MemoryBudgetImpl::try_acquire`: zero bytes always succeed with a no-op
guard; otherwise the CAS path.  Returns the new state and the new guard's
index if one was produced. -/
def budget_try_acquire (st : BudgetState) (bytes : Nat) : BudgetState × Option Nat :=
  if bytes = 0 then
    ({ st with guards := st.guards ++ [some 0] }, some st.guards.length)
  else
    let r := inner_try_acquire st.capacity st.used bytes
    if r.1 then
      ({ st with used := r.2, guards := st.guards ++ [some bytes] },
        some st.guards.length)
    else (st, none)

/-- `Drop for BudgetGuardImpl`: release the bytes when they are non-zero. -/
def budget_drop (st : BudgetState) (g : Nat) : BudgetState :=
  match st.guards.getD g none with
  | none => st
  | some b =>
    { st with
      used := if 0 < b then inner_release st.used b else st.used,
      guards := st.guards.set g none }

/-- `BudgetGuardImpl::try_resize`: equal is a no-op, shrink always succeeds,
grow runs the CAS on the delta. -/
def budget_try_resize (st : BudgetState) (g : Nat) (new_bytes : Nat) :
    BudgetState × Bool :=
  match st.guards.getD g none with
  | none => (st, false)
  | some b =>
    if new_bytes = b then (st, true)
    else if new_bytes < b then
      ({ st with
          used := inner_release st.used (b - new_bytes),
          guards := st.guards.set g (some new_bytes) }, true)
    else
      let r := inner_try_acquire st.capacity st.used (new_bytes - b)
      if r.1 then
        ({ st with used := r.2, guards := st.guards.set g (some new_bytes) }, true)
      else (st, false)

/-- One observable operation on the budget. -/
inductive BudgetCmd : Type where
  | acquire (bytes : Nat) : BudgetCmd
  | drop (g : Nat) : BudgetCmd
  | resize (g : Nat) (new_bytes : Nat) : BudgetCmd
deriving DecidableEq, Repr

/-- Byte arguments fit in `usize`, as Rust's types enforce. -/
def BudgetCmd.SizeOk : BudgetCmd → Prop
  | .acquire bytes => bytes ≤ USIZE_MAX
  | .drop _ => True
  | .resize _ new_bytes => new_bytes ≤ USIZE_MAX

instance (c : BudgetCmd) : Decidable c.SizeOk := by
  cases c <;> unfold BudgetCmd.SizeOk <;> infer_instance

def budget_step (st : BudgetState) (c : BudgetCmd) : BudgetState :=
  match c with
  | .acquire bytes => (budget_try_acquire st bytes).1
  | .drop g => budget_drop st g
  | .resize g nb => (budget_try_resize st g nb).1

/-- Run a command sequence from a fresh budget of the given capacity. -/
def budget_run (capacity : Nat) (cmds : List BudgetCmd) : BudgetState :=
  cmds.foldl budget_step ⟨capacity, 0, []⟩

/-- Bytes held by the live guards. -/
def liveSum (gs : List (Option Nat)) : Nat :=
  (gs.map (fun g => g.getD 0)).sum

/-- Inductive invariant of the budget machine. -/
def BudgetInv (st : BudgetState) : Prop :=
  st.capacity ≤ USIZE_MAX
  ∧ st.used < 2 ^ 64
  ∧ st.used ≤ st.capacity
  ∧ (st.capacity < USIZE_MAX → st.used = liveSum st.guards)
  ∧ (st.capacity < USIZE_MAX → ∀ b ∈ st.guards, b.getD 0 ≤ USIZE_MAX)

theorem liveSum_append_some (gs : List (Option Nat)) (b : Nat) :
    liveSum (gs ++ [some b]) = liveSum gs + b := by
  simp [liveSum]

theorem getD_some_le_liveSum {gs : List (Option Nat)} {g b : Nat}
    (h : gs.getD g none = some b) : b ≤ liveSum gs := by
  induction gs generalizing g with
  | nil => simp [List.getD] at h
  | cons x xs ih =>
    cases g with
    | zero =>
      simp [List.getD] at h
      simp [liveSum, h]
    | succ g' =>
      have h' : xs.getD g' none = some b := h
      have := ih h'
      simp only [liveSum, List.map_cons, List.sum_cons] at this ⊢
      omega

theorem liveSum_set {gs : List (Option Nat)} {g b : Nat}
    (h : gs.getD g none = some b) (x : Option Nat) :
    liveSum (gs.set g x) + b = liveSum gs + x.getD 0 := by
  induction gs generalizing g with
  | nil => simp [List.getD] at h
  | cons y ys ih =>
    cases g with
    | zero =>
      simp [List.getD] at h
      subst h
      simp only [List.set, liveSum, List.map_cons, List.sum_cons, Option.getD_some]
      omega
    | succ g' =>
      have h' : ys.getD g' none = some b := h
      have := ih h'
      simp only [liveSum, List.set, List.map_cons, List.sum_cons] at *
      omega

theorem getD_set_mem {gs : List (Option Nat)} {g : Nat} {x : Option Nat} :
    ∀ b ∈ gs.set g x, b = x ∨ b ∈ gs := by
  intro b hb
  rcases List.mem_or_eq_of_mem_set hb with h | h
  · exact Or.inr h
  · exact Or.inl h

theorem two_pow_64_pos : 0 < 2 ^ 64 := by positivity

theorem wrapSub_exact {a b : Nat} (hb : b ≤ a) (ha : a < 2 ^ 64) :
    wrapSub a b = a - b := by
  unfold wrapSub
  have hblt : b < 2 ^ 64 := lt_of_le_of_lt hb ha
  rw [Nat.mod_eq_of_lt hblt]
  have h1 : a + 2 ^ 64 - b = (a - b) + 2 ^ 64 := by omega
  rw [h1, Nat.add_mod_right]
  exact Nat.mod_eq_of_lt (by omega)

theorem wrapSub_lt (a b : Nat) : wrapSub a b < 2 ^ 64 :=
  Nat.mod_lt _ two_pow_64_pos

theorem budget_acquire_inv {st : BudgetState} {bytes : Nat}
    (hinv : BudgetInv st) (hb : bytes ≤ USIZE_MAX) :
    BudgetInv (budget_try_acquire st bytes).1 := by
  obtain ⟨hcap, hlt, hle, hacc, hgb⟩ := hinv
  unfold budget_try_acquire inner_try_acquire
  by_cases hb0 : bytes = 0
  · simp only [if_pos hb0]
    refine ⟨hcap, hlt, hle, ?_, ?_⟩
    · intro hlo
      show st.used = liveSum (st.guards ++ [some 0])
      rw [liveSum_append_some]
      simpa using hacc hlo
    · intro hlo b hb'
      have hb'' : b ∈ st.guards ++ [some 0] := hb'
      rcases List.mem_append.mp hb'' with h | h
      · exact hgb hlo b h
      · simp at h
        simp [h]
  · rw [if_neg hb0]
    by_cases hov : st.capacity < satAdd st.used bytes
    · simp only [if_pos hov]
      exact ⟨hcap, hlt, hle, hacc, hgb⟩
    · simp only [if_neg hov, eq_self_iff_true, if_true]
      simp only [not_lt] at hov
      have hsatle : satAdd st.used bytes ≤ USIZE_MAX := min_le_right _ _
      refine ⟨hcap, ?_, hov, ?_, ?_⟩
      · show satAdd st.used bytes < 2 ^ 64
        have : USIZE_MAX < 2 ^ 64 := by decide
        omega
      · intro hlo
        have hlo' : st.capacity < USIZE_MAX := hlo
        have hexact : satAdd st.used bytes = st.used + bytes := by
          by_cases hof : st.used + bytes ≤ USIZE_MAX
          · simp [satAdd, hof]
          · exfalso
            have hM : satAdd st.used bytes = USIZE_MAX := by
              simp only [satAdd]
              omega
            omega
        show satAdd st.used bytes = liveSum (st.guards ++ [some bytes])
        rw [hexact, liveSum_append_some, hacc hlo']
      · intro hlo b hb'
        have hb'' : b ∈ st.guards ++ [some bytes] := hb'
        rcases List.mem_append.mp hb'' with h | h
        · exact hgb hlo b h
        · simp at h
          simp [h, hb]

theorem budget_drop_inv {st : BudgetState} {g : Nat}
    (hinv : BudgetInv st) : BudgetInv (budget_drop st g) := by
  obtain ⟨hcap, hlt, hle, hacc, hgb⟩ := hinv
  unfold budget_drop
  cases hguard : st.guards.getD g none with
  | none => exact ⟨hcap, hlt, hle, hacc, hgb⟩
  | some b =>
    simp only [inner_release]
    have hset := liveSum_set hguard none
    simp only [Option.getD_none] at hset
    have hguards : ∀ hlo : st.capacity < USIZE_MAX,
        ∀ x ∈ st.guards.set g none, x.getD 0 ≤ USIZE_MAX := by
      intro hlo x hx
      rcases getD_set_mem x hx with h | h
      · simp [h]
      · exact hgb hlo x h
    rcases Nat.eq_zero_or_pos b with h0 | h0
    · subst h0
      simp only [Nat.lt_irrefl, if_neg, not_false_iff]
      refine ⟨hcap, hlt, hle, ?_, hguards⟩
      intro hlo
      have hlo' : st.capacity < USIZE_MAX := hlo
      have haccv := hacc hlo'
      show st.used = liveSum (st.guards.set g none)
      omega
    · simp only [if_pos h0]
      by_cases hlo : st.capacity < USIZE_MAX
      · have haccv := hacc hlo
        have hbu : b ≤ st.used := haccv ▸ getD_some_le_liveSum hguard
        rw [wrapSub_exact hbu hlt]
        refine ⟨hcap, ?_, ?_, ?_, hguards⟩
        · show st.used - b < 2 ^ 64
          omega
        · show st.used - b ≤ st.capacity
          omega
        · intro _
          show st.used - b = liveSum (st.guards.set g none)
          omega
      · refine ⟨hcap, wrapSub_lt _ _, ?_,
          fun h => absurd h hlo, fun h => absurd h hlo⟩
        show wrapSub st.used b ≤ st.capacity
        have h2 := wrapSub_lt st.used b
        have hU : USIZE_MAX = 2 ^ 64 - 1 := rfl
        omega

theorem budget_resize_inv {st : BudgetState} {g nb : Nat}
    (hinv : BudgetInv st) (hnb : nb ≤ USIZE_MAX) :
    BudgetInv (budget_try_resize st g nb).1 := by
  obtain ⟨hcap, hlt, hle, hacc, hgb⟩ := hinv
  unfold budget_try_resize inner_try_acquire inner_release
  cases hguard : st.guards.getD g none with
  | none => exact ⟨hcap, hlt, hle, hacc, hgb⟩
  | some b =>
    have hguards : ∀ hlo : st.capacity < USIZE_MAX,
        ∀ x ∈ st.guards.set g (some nb), x.getD 0 ≤ USIZE_MAX := by
      intro hlo x hx
      rcases getD_set_mem x hx with h | h
      · simp [h, hnb]
      · exact hgb hlo x h
    by_cases heq : nb = b
    · simp only [if_pos heq]
      exact ⟨hcap, hlt, hle, hacc, hgb⟩
    · simp only [if_neg heq]
      have hset := liveSum_set hguard (some nb)
      simp only [Option.getD_some] at hset
      by_cases hsh : nb < b
      · simp only [if_pos hsh]
        by_cases hlo : st.capacity < USIZE_MAX
        · have haccv := hacc hlo
          have hbu : b ≤ st.used := haccv ▸ getD_some_le_liveSum hguard
          rw [wrapSub_exact (by omega) hlt]
          refine ⟨hcap, ?_, ?_, ?_, hguards⟩
          · show st.used - (b - nb) < 2 ^ 64
            omega
          · show st.used - (b - nb) ≤ st.capacity
            omega
          · intro _
            show st.used - (b - nb) = liveSum (st.guards.set g (some nb))
            omega
        · refine ⟨hcap, wrapSub_lt _ _, ?_, fun h => absurd h hlo,
            fun h => absurd h hlo⟩
          show wrapSub st.used (b - nb) ≤ st.capacity
          have h2 := wrapSub_lt st.used (b - nb)
          have hU : USIZE_MAX = 2 ^ 64 - 1 := rfl
          omega
      · simp only [if_neg hsh]
        by_cases hov : st.capacity < satAdd st.used (nb - b)
        · simp only [if_pos hov]
          exact ⟨hcap, hlt, hle, hacc, hgb⟩
        · simp only [if_neg hov, eq_self_iff_true, if_true]
          simp only [not_lt] at hov
          have hsatle : satAdd st.used (nb - b) ≤ USIZE_MAX := min_le_right _ _
          refine ⟨hcap, ?_, hov, ?_, hguards⟩
          · show satAdd st.used (nb - b) < 2 ^ 64
            have : USIZE_MAX < 2 ^ 64 := by decide
            omega
          · intro hlo
            have hlo' : st.capacity < USIZE_MAX := hlo
            have hexact : satAdd st.used (nb - b) = st.used + (nb - b) := by
              by_cases hof : st.used + (nb - b) ≤ USIZE_MAX
              · simp [satAdd, hof]
              · exfalso
                have hM : satAdd st.used (nb - b) = USIZE_MAX := by
                  simp only [satAdd]
                  omega
                omega
            show satAdd st.used (nb - b) = liveSum (st.guards.set g (some nb))
            rw [hexact]
            have haccv := hacc hlo'
            have hbu : b ≤ st.used := haccv ▸ getD_some_le_liveSum hguard
            omega

theorem budget_step_inv {st : BudgetState} {c : BudgetCmd}
    (hinv : BudgetInv st) (hc : c.SizeOk) : BudgetInv (budget_step st c) := by
  cases c with
  | acquire bytes => exact budget_acquire_inv hinv hc
  | drop g => exact budget_drop_inv hinv
  | resize g nb => exact budget_resize_inv hinv hc

theorem budget_foldl_inv {st : BudgetState} {cmds : List BudgetCmd}
    (hinv : BudgetInv st) (hwf : ∀ c ∈ cmds, c.SizeOk) :
    BudgetInv (cmds.foldl budget_step st) := by
  induction cmds generalizing st with
  | nil => exact hinv
  | cons c cs ih =>
    exact ih (budget_step_inv hinv (hwf c (List.mem_cons_self c cs)))
      (fun d hd => hwf d (List.mem_cons_of_mem c hd))

theorem budget_run_inv (capacity : Nat) (hcap : capacity ≤ USIZE_MAX)
    (cmds : List BudgetCmd) (hwf : ∀ c ∈ cmds, c.SizeOk) :
    BudgetInv (budget_run capacity cmds) := by
  apply budget_foldl_inv _ hwf
  exact ⟨hcap, two_pow_64_pos, Nat.zero_le _, fun _ => rfl, by
    intro _ b hb
    simp at hb⟩

theorem budget_step_capacity (st : BudgetState) (c : BudgetCmd) :
    (budget_step st c).capacity = st.capacity := by
  cases c with
  | acquire bytes =>
    simp only [budget_step, budget_try_acquire]
    by_cases hb0 : bytes = 0
    · simp [hb0]
    · rw [if_neg hb0]
      by_cases hr : (inner_try_acquire st.capacity st.used bytes).1 <;> simp [hr]
  | drop g =>
    simp only [budget_step, budget_drop]
    cases st.guards.getD g none <;> simp
  | resize g nb =>
    simp only [budget_step, budget_try_resize]
    cases st.guards.getD g none with
    | none => rfl
    | some b =>
      by_cases heq : nb = b
      · simp [heq]
      · simp only [if_neg heq]
        by_cases hsh : nb < b
        · simp [hsh]
        · simp only [if_neg hsh]
          by_cases hr : (inner_try_acquire st.capacity st.used (nb - b)).1 <;>
            simp [hr]

theorem budget_foldl_capacity (st : BudgetState) (cmds : List BudgetCmd) :
    (cmds.foldl budget_step st).capacity = st.capacity := by
  induction cmds generalizing st with
  | nil => rfl
  | cons c cs ih => rw [List.foldl_cons, ih, budget_step_capacity]

theorem budget_run_capacity (capacity : Nat) (cmds : List BudgetCmd) :
    (budget_run capacity cmds).capacity = capacity :=
  budget_foldl_capacity _ _

theorem budget_acquire_isSome_iff (st : BudgetState) (bytes : Nat)
    (h : 0 < bytes) :
    (budget_try_acquire st bytes).2.isSome = true
      ↔ satAdd st.used bytes ≤ st.capacity := by
  unfold budget_try_acquire inner_try_acquire
  rw [if_neg (by omega : ¬ bytes = 0)]
  by_cases hov : st.capacity < satAdd st.used bytes
  · simp only [if_pos hov]
    simp
    omega
  · simp only [if_neg hov, eq_self_iff_true, if_true]
    simp
    omega

theorem budget_drop_new_zero_guard (st : BudgetState) :
    (budget_drop
        ⟨st.capacity, st.used, st.guards ++ [some 0]⟩ st.guards.length).used
      = st.used := by
  unfold budget_drop
  have hg : (st.guards ++ [some 0]).getD st.guards.length none = some 0 := by
    rw [List.getD_eq_getElem?_getD, List.getElem?_append_right (le_refl _)]
    simp
  rw [hg]
  simp

/-- C1 counterexample: with `capacity = usize::MAX`, after acquiring
`usize::MAX` bytes a further `try_acquire(1)` still returns a guard — the
`saturating_add` keeps the CAS value at `usize::MAX ≤ capacity` — even though
`used + 1 > capacity`.  This refutes the claimed "returns a guard iff
`used + bytes ≤ C`". -/
theorem C1_budget_acquire_iff_counterexample :
    (budget_try_acquire (budget_run USIZE_MAX [.acquire USIZE_MAX]) 1).2.isSome
        = true
    ∧ (budget_run USIZE_MAX [.acquire USIZE_MAX]).capacity
        < (budget_run USIZE_MAX [.acquire USIZE_MAX]).used + 1 := by
  constructor
  · decide
  · decide

/-- C1 amended: for every sequence of `try_acquire` / guard-drop /
`try_resize` operations, `0 ≤ used ≤ capacity` holds after every prefix; a
positive acquisition succeeds iff `saturating_add(used, bytes) ≤ capacity`,
which is exactly `used + bytes ≤ capacity` whenever the sum does not saturate
(so the claimed iff holds except at the `usize::MAX` saturation edge); and a
zero-byte acquisition always succeeds with a no-op guard whose drop releases
nothing. -/
theorem C1_budget_amended (capacity : Nat) (hcap : capacity ≤ USIZE_MAX)
    (cmds : List BudgetCmd) (hwf : ∀ c ∈ cmds, c.SizeOk) :
    (∀ pre suf, cmds = pre ++ suf → (budget_run capacity pre).used ≤ capacity)
    ∧ (∀ pre suf bytes, cmds = pre ++ suf → 0 < bytes →
        ((budget_try_acquire (budget_run capacity pre) bytes).2.isSome = true
          ↔ satAdd (budget_run capacity pre).used bytes ≤ capacity))
    ∧ (∀ pre suf bytes, cmds = pre ++ suf → 0 < bytes →
        (budget_run capacity pre).used + bytes ≤ USIZE_MAX →
        ((budget_try_acquire (budget_run capacity pre) bytes).2.isSome = true
          ↔ (budget_run capacity pre).used + bytes ≤ capacity))
    ∧ (∀ st : BudgetState,
        (budget_try_acquire st 0).2 = some st.guards.length
        ∧ (budget_try_acquire st 0).1.used = st.used
        ∧ (budget_drop (budget_try_acquire st 0).1 st.guards.length).used
            = st.used) := by
  have hrun : ∀ pre suf, cmds = pre ++ suf → BudgetInv (budget_run capacity pre) := by
    intro pre suf hsplit
    apply budget_run_inv capacity hcap pre
    intro c hc
    exact hwf c (hsplit ▸ List.mem_append.mpr (Or.inl hc))
  refine ⟨?_, ?_, ?_, ?_⟩
  · intro pre suf hsplit
    have h := (hrun pre suf hsplit).2.2.1
    rwa [budget_run_capacity] at h
  · intro pre suf bytes hsplit hb
    rw [budget_acquire_isSome_iff _ _ hb, budget_run_capacity]
  · intro pre suf bytes hsplit hb hsum
    rw [budget_acquire_isSome_iff _ _ hb, budget_run_capacity]
    have hsat : satAdd (budget_run capacity pre).used bytes
        = (budget_run capacity pre).used + bytes := by
      simp [satAdd, hsum]
    rw [hsat]
  · intro st
    refine ⟨rfl, rfl, ?_⟩
    exact budget_drop_new_zero_guard st

/-- Witness for the C1 amended theorem on a concrete run. -/
theorem C1_budget_amended_witness :
    (budget_run 100 [.acquire 60]).used ≤ 100
    ∧ ((budget_try_acquire (budget_run 100 [.acquire 60]) 50).2.isSome = true
        ↔ (budget_run 100 [.acquire 60]).used + 50 ≤ 100) := by
  have h := C1_budget_amended 100 (by decide)
    [.acquire 60, .drop 0] (by decide)
  exact ⟨h.1 [.acquire 60] [.drop 0] rfl,
    h.2.2.1 [.acquire 60] [.drop 0] 50 rfl (by decide) (by decide)⟩

/-! ## Segment header (`emsqrt-mem/src/spill/segment.rs`)

Bytes are `Nat` values below 256; `u32`/`u16`/`u64` little-endian encodings
are explicit `% 256` digit lists. -/

/-- Error type of `emsqrt-mem` (`error.rs`), restricted to the variants the
spill path uses. -/
inductive MemError : Type where
  | codecErr (s : String) : MemError
  | codecUnsupported (s : String) : MemError
  | storage (s : String) : MemError
  | budget (s : String) : MemError
deriving DecidableEq, Repr

/-- `Codec` from `emsqrt-mem/src/spill/codec.rs`. -/
inductive Codec : Type where
  | None : Codec
  | Zstd : Codec
  | Lz4 : Codec
deriving DecidableEq, Repr

/-- `self.codec as u8` (the `repr(u8)` discriminants). -/
def Codec.toU8 : Codec → Nat
  | .None => 0
  | .Zstd => 1
  | .Lz4 => 2

/-- `Codec::from_u8`. -/
def Codec.from_u8 (v : Nat) : Except MemError Codec :=
  match v with
  | 0 => .ok .None
  | 1 => .ok .Zstd
  | 2 => .ok .Lz4
  | _ => .error (.codecUnsupported "unknown")

/-- Little-endian digits of `n`, `w` bytes (`to_le_bytes`). -/
def toLeBytes (w n : Nat) : List Nat :=
  match w with
  | 0 => []
  | w + 1 => n % 256 :: toLeBytes w (n / 256)

/-- Value of a little-endian digit list (`from_le_bytes`). -/
def fromLeBytes (bs : List Nat) : Nat :=
  match bs with
  | [] => 0
  | b :: rest => b + 256 * fromLeBytes rest

def MAGIC : Nat := 0x45534D51
def VERSION : Nat := 1
def HEADER_LEN : Nat := 4 + 2 + 1 + 1 + 8 + 8

/-- `SegmentHeader` from `segment.rs`. -/
structure SegmentHeader : Type where
  magic : Nat
  version : Nat
  codec : Codec
  uncompressed_len : Nat
  compressed_len : Nat
deriving DecidableEq, Repr

/-- `SegmentHeader::new`. -/
def SegmentHeader.new (codec : Codec) (uncompressed_len compressed_len : Nat) :
    SegmentHeader :=
  ⟨MAGIC, VERSION, codec, uncompressed_len, compressed_len⟩

/-- `SegmentHeader::to_bytes`. -/
def SegmentHeader.to_bytes (h : SegmentHeader) : List Nat :=
  toLeBytes 4 h.magic ++ toLeBytes 2 h.version ++ [h.codec.toU8] ++ [0]
    ++ toLeBytes 8 h.uncompressed_len ++ toLeBytes 8 h.compressed_len

/-- `SegmentHeader::from_bytes`.  The source decodes the fixed offsets (magic
at 0..4, version at 4..6, codec byte at 6, byte 7 reserved, lengths at 8..16
and 16..24), with the codec byte able to fail first, then rejects a wrong
magic or version. -/
def SegmentHeader.from_bytes (bytes : List Nat) : Except MemError SegmentHeader :=
  if bytes.length < HEADER_LEN then .error (.storage "short header")
  else
    match Codec.from_u8 (bytes.getD 6 0) with
    | .error e => .error e
    | .ok codec =>
      if fromLeBytes (bytes.take 4) ≠ MAGIC
          ∨ fromLeBytes ((bytes.drop 4).take 2) ≠ VERSION then
        .error (.storage "bad magic/version")
      else
        .ok ⟨fromLeBytes (bytes.take 4), fromLeBytes ((bytes.drop 4).take 2),
          codec, fromLeBytes ((bytes.drop 8).take 8),
          fromLeBytes ((bytes.drop 16).take 8)⟩

/-- `SegmentHeader::validate_sizes`. -/
def SegmentHeader.validate_sizes (h : SegmentHeader)
    (max_uncompressed max_compressed : Nat) : Except MemError Unit :=
  if max_uncompressed < h.uncompressed_len then
    .error (.storage "uncompressed_len exceeds max")
  else if max_compressed < h.compressed_len then
    .error (.storage "compressed_len exceeds max")
  else if h.uncompressed_len < h.compressed_len ∧ h.codec ≠ .None then
    .error (.storage "compressed_len greater than uncompressed_len for compressed codec")
  else .ok ()

theorem toLeBytes_length (w n : Nat) : (toLeBytes w n).length = w := by
  induction w generalizing n with
  | zero => rfl
  | succ w ih => simp [toLeBytes, ih]

theorem fromLeBytes_toLeBytes (w n : Nat) :
    fromLeBytes (toLeBytes w n) = n % 256 ^ w := by
  induction w generalizing n with
  | zero => simp [toLeBytes, fromLeBytes, Nat.mod_one]
  | succ w ih =>
    simp only [toLeBytes, fromLeBytes, ih]
    rw [pow_succ, mul_comm (256 ^ w) 256, Nat.mod_mul]

theorem Codec.from_u8_toU8 (c : Codec) : Codec.from_u8 c.toU8 = .ok c := by
  cases c <;> rfl

theorem Codec.toU8_lt (c : Codec) : c.toU8 < 3 := by
  cases c <;> decide

theorem to_bytes_length (h : SegmentHeader) : h.to_bytes.length = 24 := by
  simp [SegmentHeader.to_bytes, toLeBytes_length]

theorem to_bytes_assoc (h : SegmentHeader) :
    h.to_bytes = toLeBytes 4 h.magic ++ (toLeBytes 2 h.version ++ ([h.codec.toU8]
      ++ ([0] ++ (toLeBytes 8 h.uncompressed_len ++ toLeBytes 8 h.compressed_len)))) := by
  simp [SegmentHeader.to_bytes, List.append_assoc]

theorem to_bytes_drop4 (h : SegmentHeader) :
    h.to_bytes.drop 4 = toLeBytes 2 h.version ++ ([h.codec.toU8]
      ++ ([0] ++ (toLeBytes 8 h.uncompressed_len ++ toLeBytes 8 h.compressed_len))) := by
  rw [to_bytes_assoc]
  exact List.drop_left' (toLeBytes_length 4 _)

theorem to_bytes_drop6 (h : SegmentHeader) :
    h.to_bytes.drop 6 = [h.codec.toU8]
      ++ ([0] ++ (toLeBytes 8 h.uncompressed_len ++ toLeBytes 8 h.compressed_len)) := by
  have h1 : (h.to_bytes.drop 4).drop 2 = h.to_bytes.drop 6 := by
    rw [List.drop_drop]
  rw [← h1, to_bytes_drop4]
  exact List.drop_left' (toLeBytes_length 2 _)

theorem to_bytes_drop8 (h : SegmentHeader) :
    h.to_bytes.drop 8
      = toLeBytes 8 h.uncompressed_len ++ toLeBytes 8 h.compressed_len := by
  have h1 : (h.to_bytes.drop 6).drop 2 = h.to_bytes.drop 8 := by
    rw [List.drop_drop]
  rw [← h1, to_bytes_drop6]
  rfl

theorem to_bytes_drop16 (h : SegmentHeader) :
    h.to_bytes.drop 16 = toLeBytes 8 h.compressed_len := by
  have h1 : (h.to_bytes.drop 8).drop 8 = h.to_bytes.drop 16 := by
    rw [List.drop_drop]
  rw [← h1, to_bytes_drop8]
  exact List.drop_left' (toLeBytes_length 8 _)

theorem to_bytes_getD6 (h : SegmentHeader) : h.to_bytes.getD 6 0 = h.codec.toU8 := by
  rw [List.getD_eq_getElem?_getD]
  have h1 : h.to_bytes[6]? = (h.to_bytes.drop 6)[0]? := by
    rw [List.getElem?_drop]
  rw [h1, to_bytes_drop6]
  rfl

theorem segment_header_roundtrip (c : Codec) (ul cl : Nat)
    (hul : ul < 2 ^ 64) (hcl : cl < 2 ^ 64) :
    SegmentHeader.from_bytes (SegmentHeader.new c ul cl).to_bytes
      = .ok (SegmentHeader.new c ul cl) := by
  have hlen := to_bytes_length (SegmentHeader.new c ul cl)
  have hm : fromLeBytes ((SegmentHeader.new c ul cl).to_bytes.take 4) = MAGIC := by
    rw [to_bytes_assoc, List.take_left' (toLeBytes_length 4 _), fromLeBytes_toLeBytes]
    show MAGIC % 256 ^ 4 = MAGIC
    decide
  have hv : fromLeBytes (((SegmentHeader.new c ul cl).to_bytes.drop 4).take 2)
      = VERSION := by
    rw [to_bytes_drop4, List.take_left' (toLeBytes_length 2 _), fromLeBytes_toLeBytes]
    show VERSION % 256 ^ 2 = VERSION
    decide
  have h256 : (256 : Nat) ^ 8 = 2 ^ 64 := by norm_num
  have hu : fromLeBytes (((SegmentHeader.new c ul cl).to_bytes.drop 8).take 8)
      = ul := by
    rw [to_bytes_drop8, List.take_left' (toLeBytes_length 8 _), fromLeBytes_toLeBytes,
      h256]
    exact Nat.mod_eq_of_lt hul
  have hc : fromLeBytes (((SegmentHeader.new c ul cl).to_bytes.drop 16).take 8)
      = cl := by
    rw [to_bytes_drop16, List.take_of_length_le (le_of_eq (toLeBytes_length 8 _)),
      fromLeBytes_toLeBytes, h256]
    exact Nat.mod_eq_of_lt hcl
  unfold SegmentHeader.from_bytes
  rw [if_neg (by rw [hlen]; decide), to_bytes_getD6, Codec.from_u8_toU8]
  simp only [hm, hv, hu, hc]
  rw [if_neg (by simp)]
  rfl

theorem from_bytes_ok_shape {bytes : List Nat} {h' : SegmentHeader}
    (h : SegmentHeader.from_bytes bytes = .ok h') :
    h'.magic = MAGIC ∧ h'.version = VERSION := by
  unfold SegmentHeader.from_bytes at h
  split at h
  · exact absurd h (by simp)
  · split at h
    · exact absurd h (by simp)
    · split at h
      · exact absurd h (by simp)
      · rename_i hmv
        push_neg at hmv
        cases h
        exact ⟨hmv.1, hmv.2⟩

theorem validate_sizes_ok_iff (h : SegmentHeader) (maxU maxC : Nat) :
    h.validate_sizes maxU maxC = .ok ()
      ↔ h.uncompressed_len ≤ maxU ∧ h.compressed_len ≤ maxC
        ∧ (h.compressed_len ≤ h.uncompressed_len ∨ h.codec = .None) := by
  unfold SegmentHeader.validate_sizes
  by_cases h1 : maxU < h.uncompressed_len
  · rw [if_pos h1]
    constructor
    · intro hcontra
      exact absurd hcontra (by simp)
    · intro hcontra
      omega
  · rw [if_neg h1]
    by_cases h2 : maxC < h.compressed_len
    · rw [if_pos h2]
      constructor
      · intro hcontra
        exact absurd hcontra (by simp)
      · intro hcontra
        omega
    · rw [if_neg h2]
      by_cases h3 : h.uncompressed_len < h.compressed_len ∧ h.codec ≠ .None
      · rw [if_pos h3]
        constructor
        · intro hcontra
          exact absurd hcontra (by simp)
        · intro hcontra
          rcases hcontra.2.2 with hle | hnone
          · omega
          · exact absurd hnone h3.2
      · rw [if_neg h3]
        push_neg at h3
        constructor
        · intro _
          refine ⟨by omega, by omega, ?_⟩
          by_cases hcc : h.compressed_len ≤ h.uncompressed_len
          · exact Or.inl hcc
          · exact Or.inr (h3 (by omega))
        · intro _
          rfl

/-- C6: `SegmentHeader::to_bytes` emits exactly 24 bytes — little-endian u32
magic `0x45534D51`, little-endian u16 version 1, one codec byte in `{0,1,2}`,
one reserved 0 byte, and the two little-endian u64 lengths; `from_bytes`
inverts the layout, and a buffer it accepts always carries the right magic
and version (so wrong ones are rejected); `validate_sizes` accepts exactly
when both lengths are within the 100 MiB limit and the compressed length does
not exceed the uncompressed length unless the codec is `None`. -/
theorem C6_segment_header_layout :
    (∀ h : SegmentHeader, h.to_bytes.length = 24
      ∧ h.to_bytes.take 4 = toLeBytes 4 h.magic
      ∧ (h.to_bytes.drop 4).take 2 = toLeBytes 2 h.version
      ∧ h.to_bytes.getD 6 0 = h.codec.toU8
      ∧ h.to_bytes.getD 7 0 = 0
      ∧ (h.to_bytes.drop 8).take 8 = toLeBytes 8 h.uncompressed_len
      ∧ h.to_bytes.drop 16 = toLeBytes 8 h.compressed_len)
    ∧ (∀ c : Codec, c.toU8 < 3 ∧ Codec.from_u8 c.toU8 = .ok c)
    ∧ MAGIC = 0x45534D51 ∧ VERSION = 1
    ∧ (∀ (c : Codec) (ul cl : Nat), ul < 2 ^ 64 → cl < 2 ^ 64 →
        SegmentHeader.from_bytes (SegmentHeader.new c ul cl).to_bytes
          = .ok (SegmentHeader.new c ul cl))
    ∧ (∀ (bytes : List Nat) (h' : SegmentHeader),
        SegmentHeader.from_bytes bytes = .ok h' →
        h'.magic = MAGIC ∧ h'.version = VERSION)
    ∧ (∀ h : SegmentHeader,
        h.validate_sizes (100 * 1024 * 1024) (100 * 1024 * 1024) = .ok ()
          ↔ h.uncompressed_len ≤ 100 * 1024 * 1024
            ∧ h.compressed_len ≤ 100 * 1024 * 1024
            ∧ (h.compressed_len ≤ h.uncompressed_len ∨ h.codec = .None)) := by
  refine ⟨?_, fun c => ⟨Codec.toU8_lt c, Codec.from_u8_toU8 c⟩, rfl, rfl,
    segment_header_roundtrip, fun _ _ => from_bytes_ok_shape, ?_⟩
  · intro h
    refine ⟨to_bytes_length h, ?_, ?_, to_bytes_getD6 h, ?_, ?_, to_bytes_drop16 h⟩
    · rw [to_bytes_assoc]
      exact List.take_left' (toLeBytes_length 4 _)
    · rw [to_bytes_drop4]
      exact List.take_left' (toLeBytes_length 2 _)
    · rw [List.getD_eq_getElem?_getD]
      have h1 : h.to_bytes[7]? = (h.to_bytes.drop 6)[1]? := by
        rw [List.getElem?_drop]
      rw [h1, to_bytes_drop6]
      rfl
    · rw [to_bytes_drop8]
      exact List.take_left' (toLeBytes_length 8 _)
  · intro h
    exact validate_sizes_ok_iff h _ _

/-- Witness for C6 at a concrete header. -/
theorem C6_segment_header_layout_witness :
    SegmentHeader.from_bytes (SegmentHeader.new .Zstd 5 3).to_bytes
      = .ok (SegmentHeader.new .Zstd 5 3) :=
  C6_segment_header_layout.2.2.2.2.1 .Zstd 5 3 (by decide) (by decide)

/-! ## Spill manager (`emsqrt-mem/src/spill/mod.rs`)

Storage is the `Storage` trait modelled as a path-to-bytes map with the
`FsStorage` read semantics (`read_range(path, off, len)` returns up to `len`
bytes from `off`).  serde_json, blake3, zstd and lz4 are external crates:
they enter as explicit function parameters bundled in `SpillExt`. -/

/-- Modelled from the spec: the external compressor/decompressor pairs behind
`codec::compress`/`codec::decompress` for the `Zstd` and `Lz4` codecs (the
crates `zstd` and `lz4_flex` are not part of the repository). -/
structure ExtCodecs : Type where
  zstdC : List Nat → Except MemError (List Nat)
  zstdD : List Nat → Except MemError (List Nat)
  lz4C : List Nat → Except MemError (List Nat)
  lz4D : List Nat → Except MemError (List Nat)

/-- `codec::compress` (codec.rs): `None` is the identity, the others
dispatch to the external crates. -/
def compress (E : ExtCodecs) (codec : Codec) (input : List Nat) :
    Except MemError (List Nat) :=
  match codec with
  | .None => .ok input
  | .Zstd => E.zstdC input
  | .Lz4 => E.lz4C input

/-- `codec::decompress` (codec.rs). -/
def decompress (E : ExtCodecs) (codec : Codec) (input : List Nat) :
    Except MemError (List Nat) :=
  match codec with
  | .None => .ok input
  | .Zstd => E.zstdD input
  | .Lz4 => E.lz4D input

/-- Modelled from the spec: the external serde_json serialization of a
`RowBatch` to a canonical byte form, its inverse, and the BLAKE3-256 digest
(all external crates), bundled with the codecs. -/
structure SpillExt : Type where
  codecs : ExtCodecs
  ser : RowBatch → Except String (List Nat)
  deser : List Nat → Except String RowBatch
  hash : List Nat → List Nat

/-- The pluggable storage backend as a path-to-bytes map (`FsStorage`
semantics). -/
structure StorageModel : Type where
  entries : List (String × List Nat)
deriving Repr

def StorageModel.lookup (st : StorageModel) (path : String) : Option (List Nat) :=
  (st.entries.find? (fun e => e.1 = path)).map (fun e => e.2)

/-- `Storage::write`: create or overwrite the path. -/
def StorageModel.write (st : StorageModel) (path : String) (bytes : List Nat) :
    StorageModel :=
  ⟨(path, bytes) :: st.entries⟩

/-- `FsStorage::read_range`: seek to `offset`, read up to `len` bytes. -/
def StorageModel.read_range (st : StorageModel) (path : String)
    (offset len : Nat) : Except MemError (List Nat) :=
  match st.lookup path with
  | none => .error (.storage "open")
  | some bs => .ok ((bs.drop offset).take len)

/-- `SegmentName::new`. -/
def segName (spill_id run_index : Nat) : String :=
  "spill" ++ Nat.repr spill_id ++ "_run" ++ Nat.repr run_index

/-- `SegmentMeta` (etag omitted: always absent in the model). -/
structure SegmentMeta : Type where
  name : String
  path : String
  codec : Codec
  uncompressed_len : Nat
  compressed_len : Nat
  checksum : List Nat
deriving Repr

/-- `SpillManager` state. -/
structure SpillMgr : Type where
  storage : StorageModel
  codec : Codec
  root_dir : String
  next_run : Nat
  segments : List (String × SegmentMeta)
deriving Repr

/-- `SpillManager::write_batch`: serialize, compress, build the header, hash
`header ‖ compressed`, write the segment, record the metadata. -/
def SpillMgr.write_batch (X : SpillExt) (mgr : SpillMgr) (batch : RowBatch)
    (spill_id run_index : Nat) : Except MemError (SpillMgr × SegmentMeta) :=
  match X.ser batch with
  | .error e => .error (.codecErr e)
  | .ok uncompressed =>
    match compress X.codecs mgr.codec uncompressed with
    | .error e => .error e
    | .ok compressed =>
      let header := SegmentHeader.new mgr.codec uncompressed.length compressed.length
      let header_bytes := header.to_bytes
      let checksum := X.hash (header_bytes ++ compressed)
      let name := segName spill_id run_index
      let path := mgr.root_dir ++ "/" ++ name ++ ".seg"
      let meta : SegmentMeta :=
        ⟨name, path, mgr.codec, uncompressed.length, compressed.length, checksum⟩
      .ok ({ mgr with
              storage := mgr.storage.write path (header_bytes ++ compressed),
              segments := (name, meta) :: mgr.segments },
            meta)

/-- `SpillManager::read_batch`: read the whole segment, verify the checksum,
parse and validate the header, acquire a budget guard sized to
`uncompressed_len`, decompress, deserialize. -/
def SpillMgr.read_batch (X : SpillExt) (mgr : SpillMgr) (meta : SegmentMeta)
    (budget : BudgetState) : Except MemError RowBatch :=
  match mgr.storage.read_range meta.path 0 (HEADER_LEN + meta.compressed_len) with
  | .error e => .error e
  | .ok full =>
    if full.length < HEADER_LEN then .error (.storage "segment too short")
    else if X.hash full ≠ meta.checksum then .error (.storage "checksum mismatch")
    else
      match SegmentHeader.from_bytes (full.take HEADER_LEN) with
      | .error e => .error e
      | .ok header =>
        match header.validate_sizes (100 * 1024 * 1024) (100 * 1024 * 1024) with
        | .error e => .error e
        | .ok _ =>
          if (budget_try_acquire budget header.uncompressed_len).2.isSome then
            match decompress X.codecs header.codec (full.drop HEADER_LEN) with
            | .error e => .error e
            | .ok uncompressed =>
              match X.deser uncompressed with
              | .error e => .error (.codecErr e)
              | .ok batch => .ok batch
          else .error (.budget "cannot acquire for decompression")

/-- Flip bit `k` of the byte at position `i`. -/
def flipBit (bs : List Nat) (i k : Nat) : List Nat :=
  bs.set i (Nat.xor (bs.getD i 0) (2 ^ k))

theorem lookup_write_same (st : StorageModel) (p : String) (bs : List Nat) :
    (st.write p bs).lookup p = some bs := by
  simp [StorageModel.lookup, StorageModel.write, List.find?]

/-- C2 counterexample: with a compressible-codec configuration whose
compressor inflates the payload (possible for any real compressor on
incompressible input: `compressed_len > uncompressed_len`), `write_batch`
succeeds but `read_batch` rejects the intact segment in `validate_sizes`, so
`read_batch(write_batch(b)) ≠ b` even with an intact checksum and ample
budget. -/
theorem C2_spill_roundtrip_counterexample :
    ∃ mgr' meta,
      SpillMgr.write_batch
          ⟨⟨fun l => .ok (0 :: l), fun l => .ok (l.drop 1),
              fun l => .ok l, fun l => .ok l⟩,
            fun _ => .ok [1, 2, 3], fun _ => .ok ⟨[⟨"x", [.I64 1]⟩]⟩,
            fun l => l⟩
          ⟨⟨[]⟩, .Zstd, "root", 0, []⟩ ⟨[⟨"x", [.I64 1]⟩]⟩ 7 0
        = .ok (mgr', meta)
      ∧ SpillMgr.read_batch
          ⟨⟨fun l => .ok (0 :: l), fun l => .ok (l.drop 1),
              fun l => .ok l, fun l => .ok l⟩,
            fun _ => .ok [1, 2, 3], fun _ => .ok ⟨[⟨"x", [.I64 1]⟩]⟩,
            fun l => l⟩
          mgr' meta ⟨2 ^ 32, 0, []⟩
        = .error (.storage
            "compressed_len greater than uncompressed_len for compressed codec") := by
  refine ⟨_, _, rfl, ?_⟩
  rfl

/-- Write/read round-trip of the spill manager under the read-side sanity
provisos, with the corruption-detection clause; shared by the spill
round-trip claim and the external-sort spill path. -/
theorem spill_write_read
    (X : SpillExt) (mgr : SpillMgr) (batch : RowBatch)
    (spill_id run_index : Nat) (budget : BudgetState) (u comp : List Nat)
    (hser : X.ser batch = .ok u)
    (hcomp : compress X.codecs mgr.codec u = .ok comp)
    (hul : u.length ≤ 100 * 1024 * 1024)
    (hcl : comp.length ≤ 100 * 1024 * 1024)
    (hsize : comp.length ≤ u.length ∨ mgr.codec = .None)
    (hdecomp : decompress X.codecs mgr.codec comp = .ok u)
    (hdeser : X.deser u = .ok batch)
    (hbud : (budget_try_acquire budget u.length).2.isSome = true) :
    ∃ mgr' meta,
      SpillMgr.write_batch X mgr batch spill_id run_index = .ok (mgr', meta)
      ∧ SpillMgr.read_batch X mgr' meta budget = .ok batch
      ∧ ∀ bad : List Nat,
          bad.length = HEADER_LEN + meta.compressed_len →
          X.hash bad ≠ meta.checksum →
          SpillMgr.read_batch X
              { mgr' with storage := mgr'.storage.write meta.path bad }
              meta budget
            = .error (.storage "checksum mismatch") := by
  have hulx : u.length < 2 ^ 64 := lt_of_le_of_lt hul (by norm_num)
  have hclx : comp.length < 2 ^ 64 := lt_of_le_of_lt hcl (by norm_num)
  have hhb := to_bytes_length (SegmentHeader.new mgr.codec u.length comp.length)
  have hhb' : (SegmentHeader.new mgr.codec u.length comp.length).to_bytes.length
      = HEADER_LEN := by rw [hhb]; rfl
  have hFlen : ((SegmentHeader.new mgr.codec u.length comp.length).to_bytes
      ++ comp).length = HEADER_LEN + comp.length := by
    rw [List.length_append, hhb']
  refine ⟨{ mgr with
      storage := mgr.storage.write
        (mgr.root_dir ++ "/" ++ segName spill_id run_index ++ ".seg")
        ((SegmentHeader.new mgr.codec u.length comp.length).to_bytes ++ comp),
      segments := (segName spill_id run_index,
        ⟨segName spill_id run_index,
          mgr.root_dir ++ "/" ++ segName spill_id run_index ++ ".seg",
          mgr.codec, u.length, comp.length,
          X.hash ((SegmentHeader.new mgr.codec u.length comp.length).to_bytes
            ++ comp)⟩) :: mgr.segments },
    ⟨segName spill_id run_index,
      mgr.root_dir ++ "/" ++ segName spill_id run_index ++ ".seg",
      mgr.codec, u.length, comp.length,
      X.hash ((SegmentHeader.new mgr.codec u.length comp.length).to_bytes
        ++ comp)⟩, ?_, ?_, ?_⟩
  · unfold SpillMgr.write_batch
    simp only [hser, hcomp]
  · unfold SpillMgr.read_batch
    have hrr : (mgr.storage.write
          (mgr.root_dir ++ "/" ++ segName spill_id run_index ++ ".seg")
          ((SegmentHeader.new mgr.codec u.length comp.length).to_bytes ++ comp)).read_range
          (mgr.root_dir ++ "/" ++ segName spill_id run_index ++ ".seg") 0
          (HEADER_LEN + comp.length)
        = .ok ((SegmentHeader.new mgr.codec u.length comp.length).to_bytes ++ comp) := by
      unfold StorageModel.read_range
      simp only [lookup_write_same, List.drop_zero]
      rw [List.take_of_length_le (le_of_eq hFlen)]
    have hval : (SegmentHeader.new mgr.codec u.length comp.length).validate_sizes
        (100 * 1024 * 1024) (100 * 1024 * 1024) = .ok () := by
      rw [validate_sizes_ok_iff]
      exact ⟨hul, hcl, hsize⟩
    have hdrop : ((SegmentHeader.new mgr.codec u.length comp.length).to_bytes
        ++ comp).drop HEADER_LEN = comp := List.drop_left' hhb'
    simp only [hrr]
    rw [if_neg (by rw [hFlen]; omega)]
    rw [if_neg (by simp)]
    simp only [List.take_left' hhb', segment_header_roundtrip _ _ _ hulx hclx, hval]
    simp only [SegmentHeader.new] at hdrop ⊢
    rw [if_pos hbud]
    simp only [hdrop]
    show (match decompress X.codecs mgr.codec comp with
      | .error e => .error e
      | .ok uncompressed =>
        match X.deser uncompressed with
        | .error e => Except.error (.codecErr e)
        | .ok b => Except.ok b) = Except.ok batch
    simp only [hdecomp, hdeser]
  · intro bad hbadlen hbadhash
    have hbl : bad.length = HEADER_LEN + comp.length := by simpa using hbadlen
    unfold SpillMgr.read_batch
    have hrr : (((mgr.storage.write
          (mgr.root_dir ++ "/" ++ segName spill_id run_index ++ ".seg")
          ((SegmentHeader.new mgr.codec u.length comp.length).to_bytes ++ comp)).write
          (mgr.root_dir ++ "/" ++ segName spill_id run_index ++ ".seg") bad)).read_range
          (mgr.root_dir ++ "/" ++ segName spill_id run_index ++ ".seg") 0
          (HEADER_LEN + comp.length)
        = .ok bad := by
      unfold StorageModel.read_range
      simp only [lookup_write_same, List.drop_zero]
      rw [List.take_of_length_le (le_of_eq hbl)]
    simp only [hrr]
    rw [if_neg (by omega)]
    rw [if_pos hbadhash]

/-- C2 amended: the spill round-trip holds for every batch the configured
codec can serialize and compress, provided the segment passes the read-side
sanity checks — both lengths within 100 MiB and `compressed_len ≤
uncompressed_len` unless the codec is `None` — the codec round-trips, and the
budget can cover the decompression buffer; and any corruption of the stored
bytes (in particular any single flipped bit) whose BLAKE3 digest differs from
the recorded checksum makes `read_batch` fail with the checksum-mismatch
error. -/
theorem C2_spill_roundtrip_amended
    (X : SpillExt) (mgr : SpillMgr) (batch : RowBatch)
    (spill_id run_index : Nat) (budget : BudgetState) (u comp : List Nat)
    (hser : X.ser batch = .ok u)
    (hcomp : compress X.codecs mgr.codec u = .ok comp)
    (hul : u.length ≤ 100 * 1024 * 1024)
    (hcl : comp.length ≤ 100 * 1024 * 1024)
    (hsize : comp.length ≤ u.length ∨ mgr.codec = .None)
    (hdecomp : decompress X.codecs mgr.codec comp = .ok u)
    (hdeser : X.deser u = .ok batch)
    (hbud : (budget_try_acquire budget u.length).2.isSome = true) :
    ∃ mgr' meta,
      SpillMgr.write_batch X mgr batch spill_id run_index = .ok (mgr', meta)
      ∧ SpillMgr.read_batch X mgr' meta budget = .ok batch
      ∧ ∀ bad : List Nat,
          bad.length = HEADER_LEN + meta.compressed_len →
          X.hash bad ≠ meta.checksum →
          SpillMgr.read_batch X
              { mgr' with storage := mgr'.storage.write meta.path bad }
              meta budget
            = .error (.storage "checksum mismatch") :=
  spill_write_read X mgr batch spill_id run_index budget u comp
    hser hcomp hul hcl hsize hdecomp hdeser hbud

/-- Witness for the C2 amended theorem: codec `None`, a concrete one-batch
serializer, the identity digest, and a 2^32-byte budget. -/
theorem C2_spill_roundtrip_amended_witness :
    ∃ mgr' meta,
      SpillMgr.write_batch
          ⟨⟨fun l => .ok l, fun l => .ok l, fun l => .ok l, fun l => .ok l⟩,
            fun _ => .ok [9, 8], fun _ => .ok ⟨[⟨"y", [.I32 5]⟩]⟩, fun l => l⟩
          ⟨⟨[]⟩, .None, "root", 0, []⟩ ⟨[⟨"y", [.I32 5]⟩]⟩ 1 2
        = .ok (mgr', meta)
      ∧ SpillMgr.read_batch
          ⟨⟨fun l => .ok l, fun l => .ok l, fun l => .ok l, fun l => .ok l⟩,
            fun _ => .ok [9, 8], fun _ => .ok ⟨[⟨"y", [.I32 5]⟩]⟩, fun l => l⟩
          mgr' meta ⟨2 ^ 32, 0, []⟩
        = .ok ⟨[⟨"y", [.I32 5]⟩]⟩
      ∧ ∀ bad : List Nat,
          bad.length = HEADER_LEN + meta.compressed_len →
          (fun l => l : List Nat → List Nat) bad ≠ meta.checksum →
          SpillMgr.read_batch
              ⟨⟨fun l => .ok l, fun l => .ok l, fun l => .ok l, fun l => .ok l⟩,
                fun _ => .ok [9, 8], fun _ => .ok ⟨[⟨"y", [.I32 5]⟩]⟩, fun l => l⟩
              { mgr' with storage := mgr'.storage.write meta.path bad }
              meta ⟨2 ^ 32, 0, []⟩
            = .error (.storage "checksum mismatch") :=
  C2_spill_roundtrip_amended
    ⟨⟨fun l => .ok l, fun l => .ok l, fun l => .ok l, fun l => .ok l⟩,
      fun _ => .ok [9, 8], fun _ => .ok ⟨[⟨"y", [.I32 5]⟩]⟩, fun l => l⟩
    ⟨⟨[]⟩, .None, "root", 0, []⟩ ⟨[⟨"y", [.I32 5]⟩]⟩ 1 2 ⟨2 ^ 32, 0, []⟩
    [9, 8] [9, 8] rfl rfl (by norm_num) (by norm_num) (Or.inr rfl) rfl rfl
    (by decide)

/-! ### External sort, spill path (`sort/external.rs`, `sort/run.rs`)

`ExternalSort::eval_block` with a spill manager — the configuration the
engine installs — runs a `RunGenerator`: `add_batch` accumulates the single
input batch (flushing at the 10000-row threshold), `finalize` flushes the
rest, and `flush_run` concatenates, sorts and spills one run; a lone run is
read back, two or more go through the k-way merge.  Rust error formatting
(`format!("...: {}", e)`) renders `emsqrt-mem` errors through their
`Display` strings, embedded as `MemError.render` from the `thiserror`
attributes in `error.rs`. -/

/-- Display strings of the `emsqrt-mem` error variants (`error.rs`). -/
def MemError.render : MemError → String
  | .codecErr s => "codec error: " ++ s
  | .codecUnsupported s => "unsupported codec: " ++ s
  | .storage s => "spill storage error: " ++ s
  | .budget s => "memory budget error: " ++ s

/-- `RunMeta` from `sort/run.rs`. -/
structure RunMeta : Type where
  rows : Nat
  segment : SegmentMeta
deriving Repr

/-- `RunGenerator` state (`sort/run.rs`). -/
structure RunGenerator : Type where
  spill_id : Nat
  sort_keys : List String
  accumulator : List RowBatch
  accum_rows : Nat
  max_rows : Nat
  runs : List RunMeta

/-- `RunGenerator::new`. -/
def RunGenerator.new (spill_id : Nat) (sort_keys : List String)
    (max_rows : Nat) : RunGenerator :=
  ⟨spill_id, sort_keys, [], 0, max_rows, []⟩

/-- One later batch folded into the merged batch inside `flush_run`: each
column index below the merged arity is extended with that batch's values
(indices beyond the batch's arity stay unchanged). -/
def extendCols (merged b : RowBatch) : RowBatch :=
  ⟨(List.range merged.columns.length).map (fun i =>
    match b.columns[i]? with
    | some c => ⟨(merged.columns.getD i defCol).name,
        (merged.columns.getD i defCol).values ++ c.values⟩
    | none => merged.columns.getD i defCol)⟩

/-- `RunGenerator::flush_run`: no-op on an empty accumulator; otherwise
concatenate the accumulated batches, sort by the keys, take the next run
index (`next_run.fetch_add(1)`), spill the sorted batch and record the
run. -/
def RunGenerator.flush_run (X : SpillExt) (g : RunGenerator) (mgr : SpillMgr) :
    Except String (RunGenerator × SpillMgr) :=
  match g.accumulator with
  | [] => .ok (g, mgr)
  | first :: rest =>
    match (rest.foldl extendCols ⟨first.columns⟩).sort_by_columns g.sort_keys with
    | .error e => .error ("sort failed: " ++ e)
    | .ok sortedB =>
      match SpillMgr.write_batch X { mgr with next_run := mgr.next_run + 1 }
          sortedB g.spill_id mgr.next_run with
      | .error e => .error ("spill write: " ++ e.render)
      | .ok (mgr', meta) =>
        .ok ({ g with runs := g.runs ++ [⟨sortedB.num_rows, meta⟩],
                      accumulator := [], accum_rows := 0 }, mgr')

/-- `RunGenerator::add_batch`: accumulate, flushing when the row threshold
is reached. -/
def RunGenerator.add_batch (X : SpillExt) (g : RunGenerator) (batch : RowBatch)
    (mgr : SpillMgr) : Except String (RunGenerator × SpillMgr) :=
  let g₁ : RunGenerator :=
    { g with accumulator := g.accumulator ++ [batch],
             accum_rows := g.accum_rows + batch.num_rows }
  if g₁.max_rows ≤ g₁.accum_rows then g₁.flush_run X mgr
  else .ok (g₁, mgr)

/-- `RunGenerator::finalize`: flush the remainder and return the runs. -/
def RunGenerator.finalize (X : SpillExt) (g : RunGenerator) (mgr : SpillMgr) :
    Except String (List RunMeta × SpillMgr) :=
  match g.flush_run X mgr with
  | .error e => .error e
  | .ok (g', mgr') => .ok (g'.runs, mgr')

/-- Run read-back loop at the top of `k_way_merge`. -/
def readRuns (X : SpillExt) (mgr : SpillMgr) (budget : BudgetState) :
    List RunMeta → Except String (List RowBatch)
  | [] => .ok []
  | r :: rs =>
    match SpillMgr.read_batch X mgr r.segment budget with
    | .error e => .error ("read run for merge: " ++ e.render)
    | .ok b =>
      match readRuns X mgr budget rs with
      | .error e => .error e
      | .ok bs => .ok (b :: bs)

/-- `k_way_merge` from `sort/external.rs` in full: read every run back from
the spill manager, then merge through the heap (`k_way_merge_batches`). -/
def k_way_merge (X : SpillExt) (runs : List RunMeta) (sort_keys : List String)
    (mgr : SpillMgr) (budget : BudgetState) : Except String RowBatch :=
  match readRuns X mgr budget runs with
  | .error e => .error e
  | .ok run_batches => k_way_merge_batches run_batches sort_keys

/-- `ExternalSort::eval_block`, both branches: with no spill manager, clone
the input and sort in memory; with one, generate runs (one `add_batch` plus
`finalize`), read a lone run back, or k-way merge several.  The manager
state is threaded explicitly and the nanosecond-clock spill id is a
parameter. -/
def ExternalSort.eval_block (X : SpillExt) (sortBy : List String)
    (spill : Option SpillMgr) (spill_id : Nat) (budget : BudgetState)
    (inputs : List RowBatch) : Except String RowBatch :=
  match inputs.head? with
  | none => .error "missing input"
  | some input =>
    match spill with
    | none =>
      match input.sort_by_columns sortBy with
      | .error e => .error ("in-memory sort: " ++ e)
      | .ok batch => .ok batch
    | some mgr =>
      match (RunGenerator.new spill_id sortBy 10000).add_batch X input mgr with
      | .error e => .error e
      | .ok gm =>
        match gm.1.finalize X gm.2 with
        | .error e => .error e
        | .ok rm =>
          if rm.1.length ≤ 1 then
            match rm.1.head? with
            | some run =>
              match SpillMgr.read_batch X rm.2 run.segment budget with
              | .error e => .error ("read run: " ++ e.render)
              | .ok batch => .ok batch
            | none => .ok ⟨input.columns.map (fun c => ⟨c.name, []⟩)⟩
          else
            k_way_merge X rm.1 sortBy rm.2 budget

/-- C3 counterexample: with a spill manager installed (as the engine always
does) and a codec configuration whose compressor inflates the 3-byte
payload to 4 bytes — as real codecs do on small or incompressible inputs —
`eval_block` does not return the sorted batch at all: the lone run is
written, but its read-back is rejected by `validate_sizes` and the operator
fails. -/
theorem C3_external_sort_spill_counterexample :
    ExternalSort.eval_block
        ⟨⟨fun l => .ok (0 :: l), fun l => .ok (l.drop 1),
            fun l => .ok l, fun l => .ok l⟩,
          fun _ => .ok [1, 2, 3], fun _ => .ok ⟨[⟨"x", [.I64 1]⟩]⟩,
          fun l => l⟩
        ["x"] (some ⟨⟨[]⟩, .Zstd, "root", 0, []⟩) 7 ⟨2 ^ 32, 0, []⟩
        [⟨[⟨"x", [.I64 1]⟩]⟩]
      = .error ("read run: spill storage error: "
          ++ "compressed_len greater than uncompressed_len for compressed codec") := by
  rfl

/-- C3 amended: `ExternalSort::eval_block` returns the input sorted by the
key columns under the section-3 `Scalar` ordering — same multiset of rows,
sorted, stable, schema preserved — on the in-memory path unconditionally;
on the spill path (the configuration the engine installs) it returns the
same sorted batch provided the spilled segment passes the read-side sanity
checks (lengths within 100 MiB and `compressed_len ≤ uncompressed_len`
unless the codec is `None`) and the external serialize/compress pair
round-trips within budget; without those provisos the spill path can fail
instead of returning the sorted batch. -/
theorem C3_external_sort_amended (b : RowBatch) (keys : List String)
    (kidx : List Nat) (X : SpillExt) (mgr : SpillMgr) (spill_id : Nat)
    (budget : BudgetState) (hk : keyIndices b keys = some kidx) :
    ∃ out σ,
      ExternalSort.eval_block X keys none spill_id budget [b] = .ok out
      ∧ σ.Perm (List.range b.num_rows)
      ∧ RowBatch.rows out = σ.map (rowAt b)
      ∧ (RowBatch.rows out).Perm (RowBatch.rows b)
      ∧ out.columns.map Column.name = b.columns.map Column.name
      ∧ List.Pairwise
          (fun r s => (scalar_tuple_cmp (selectAt kidx r) (selectAt kidx s)).isLE = true)
          (RowBatch.rows out)
      ∧ (∀ i j, i < j → j < b.num_rows →
          scalar_tuple_cmp (keyTuple b kidx i) (keyTuple b kidx j) = .eq →
          List.Sublist [i, j] σ)
      ∧ (∀ u comp : List Nat,
          X.ser out = .ok u →
          compress X.codecs mgr.codec u = .ok comp →
          u.length ≤ 100 * 1024 * 1024 →
          comp.length ≤ 100 * 1024 * 1024 →
          (comp.length ≤ u.length ∨ mgr.codec = .None) →
          decompress X.codecs mgr.codec comp = .ok u →
          X.deser u = .ok out →
          (budget_try_acquire budget u.length).2.isSome = true →
          ExternalSort.eval_block X keys (some mgr) spill_id budget [b] = .ok out) := by
  obtain ⟨out, σ, hsort, hperm, hrows, hrp, hnames, hpw, hstab⟩ :=
    sort_by_columns_spec b keys kidx hk
  refine ⟨out, σ, ?_, hperm, hrows, hrp, hnames, hpw, hstab, ?_⟩
  · show (match b.sort_by_columns keys with
      | .error e => Except.error ("in-memory sort: " ++ e)
      | .ok batch => Except.ok batch) = Except.ok out
    rw [hsort]
  · intro u comp hser hcomp hul hcl hsize hdecomp hdeser hbud
    obtain ⟨mgr', meta, hw, hr, -⟩ :=
      spill_write_read X { mgr with next_run := mgr.next_run + 1 } out
        spill_id mgr.next_run budget u comp hser hcomp hul hcl hsize
        hdecomp hdeser hbud
    have hsort' : (RowBatch.mk b.columns).sort_by_columns keys = .ok out := hsort
    have hflush : RunGenerator.flush_run X
        ⟨spill_id, keys, [b], b.num_rows, 10000, []⟩ mgr
        = .ok (⟨spill_id, keys, [], 0, 10000, [⟨out.num_rows, meta⟩]⟩, mgr') := by
      simp only [RunGenerator.flush_run, List.foldl_nil, hsort', hw,
        List.nil_append]
    have hfin : RunGenerator.finalize X
        (⟨spill_id, keys, [b], b.num_rows, 10000, []⟩ : RunGenerator) mgr
        = .ok ([⟨out.num_rows, meta⟩], mgr') := by
      unfold RunGenerator.finalize
      rw [hflush]
    have hfin0 : RunGenerator.finalize X
        (⟨spill_id, keys, [], 0, 10000, [⟨out.num_rows, meta⟩]⟩ : RunGenerator) mgr'
        = .ok ([⟨out.num_rows, meta⟩], mgr') := rfl
    have hadd : RunGenerator.add_batch X (RunGenerator.new spill_id keys 10000) b mgr
        = if 10000 ≤ b.num_rows then
            RunGenerator.flush_run X ⟨spill_id, keys, [b], b.num_rows, 10000, []⟩ mgr
          else .ok (⟨spill_id, keys, [b], b.num_rows, 10000, []⟩, mgr) := by
      show (if 10000 ≤ 0 + b.num_rows then
          RunGenerator.flush_run X ⟨spill_id, keys, [] ++ [b], 0 + b.num_rows, 10000, []⟩ mgr
        else .ok (⟨spill_id, keys, [] ++ [b], 0 + b.num_rows, 10000, []⟩, mgr)) = _
      simp only [Nat.zero_add, List.nil_append]
    show (match RunGenerator.add_batch X (RunGenerator.new spill_id keys 10000) b mgr with
      | .error e => Except.error e
      | .ok gm =>
        match RunGenerator.finalize X gm.1 gm.2 with
        | .error e => Except.error e
        | .ok rm =>
          if rm.1.length ≤ 1 then
            match rm.1.head? with
            | some run =>
              match SpillMgr.read_batch X rm.2 run.segment budget with
              | .error e => Except.error ("read run: " ++ MemError.render e)
              | .ok batch => Except.ok batch
            | none => Except.ok (⟨b.columns.map (fun c => ⟨c.name, []⟩)⟩ : RowBatch)
          else
            k_way_merge X rm.1 keys rm.2 budget)
      = Except.ok out
    rw [hadd]
    by_cases h10 : 10000 ≤ b.num_rows
    · rw [if_pos h10, hflush]
      show (match RunGenerator.finalize X
          (⟨spill_id, keys, [], 0, 10000, [⟨out.num_rows, meta⟩]⟩ : RunGenerator) mgr' with
        | .error e => Except.error e
        | .ok rm =>
          if rm.1.length ≤ 1 then
            match rm.1.head? with
            | some run =>
              match SpillMgr.read_batch X rm.2 run.segment budget with
              | .error e => Except.error ("read run: " ++ MemError.render e)
              | .ok batch => Except.ok batch
            | none => Except.ok (⟨b.columns.map (fun c => ⟨c.name, []⟩)⟩ : RowBatch)
          else
            k_way_merge X rm.1 keys rm.2 budget)
        = Except.ok out
      rw [hfin0]
      show (match SpillMgr.read_batch X mgr' meta budget with
        | .error e => Except.error ("read run: " ++ MemError.render e)
        | .ok batch => Except.ok batch) = Except.ok out
      rw [hr]
    · rw [if_neg h10]
      show (match RunGenerator.finalize X
          (⟨spill_id, keys, [b], b.num_rows, 10000, []⟩ : RunGenerator) mgr with
        | .error e => Except.error e
        | .ok rm =>
          if rm.1.length ≤ 1 then
            match rm.1.head? with
            | some run =>
              match SpillMgr.read_batch X rm.2 run.segment budget with
              | .error e => Except.error ("read run: " ++ MemError.render e)
              | .ok batch => Except.ok batch
            | none => Except.ok (⟨b.columns.map (fun c => ⟨c.name, []⟩)⟩ : RowBatch)
          else
            k_way_merge X rm.1 keys rm.2 budget)
        = Except.ok out
      rw [hfin]
      show (match SpillMgr.read_batch X mgr' meta budget with
        | .error e => Except.error ("read run: " ++ MemError.render e)
        | .ok batch => Except.ok batch) = Except.ok out
      rw [hr]

/-- Witness for the C3 amended theorem at a concrete two-column batch with
duplicate keys, an identity-codec spill configuration, and a 2^32-byte
budget. -/
theorem C3_external_sort_amended_witness :
    ∃ out σ,
      ExternalSort.eval_block
          ⟨⟨fun l => .ok l, fun l => .ok l, fun l => .ok l, fun l => .ok l⟩,
            fun _ => .ok [9, 8], fun _ => .ok ⟨[⟨"y", [.I32 5]⟩]⟩, fun l => l⟩
          ["k"] none 7 ⟨2 ^ 32, 0, []⟩
          [⟨[⟨"k", [.I64 2, .I64 1, .I64 2]⟩, ⟨"v", [.Str "a", .Str "b", .Str "c"]⟩]⟩]
        = .ok out
      ∧ σ.Perm (List.range 3)
      ∧ RowBatch.rows out
          = σ.map (rowAt ⟨[⟨"k", [.I64 2, .I64 1, .I64 2]⟩, ⟨"v", [.Str "a", .Str "b", .Str "c"]⟩]⟩)
      ∧ (RowBatch.rows out).Perm
          (RowBatch.rows ⟨[⟨"k", [.I64 2, .I64 1, .I64 2]⟩, ⟨"v", [.Str "a", .Str "b", .Str "c"]⟩]⟩)
      ∧ out.columns.map Column.name = ["k", "v"]
      ∧ List.Pairwise
          (fun r s => (scalar_tuple_cmp (selectAt [0] r) (selectAt [0] s)).isLE = true)
          (RowBatch.rows out)
      ∧ (∀ i j, i < j → j < 3 →
          scalar_tuple_cmp
              (keyTuple ⟨[⟨"k", [.I64 2, .I64 1, .I64 2]⟩, ⟨"v", [.Str "a", .Str "b", .Str "c"]⟩]⟩ [0] i)
              (keyTuple ⟨[⟨"k", [.I64 2, .I64 1, .I64 2]⟩, ⟨"v", [.Str "a", .Str "b", .Str "c"]⟩]⟩ [0] j)
            = .eq →
          List.Sublist [i, j] σ)
      ∧ (∀ u comp : List Nat,
          (fun _ => Except.ok [9, 8] : RowBatch → Except String (List Nat)) out = .ok u →
          compress ⟨fun l => .ok l, fun l => .ok l, fun l => .ok l, fun l => .ok l⟩
            .None u = .ok comp →
          u.length ≤ 100 * 1024 * 1024 →
          comp.length ≤ 100 * 1024 * 1024 →
          (comp.length ≤ u.length ∨ Codec.None = .None) →
          decompress ⟨fun l => .ok l, fun l => .ok l, fun l => .ok l, fun l => .ok l⟩
            .None comp = .ok u →
          (fun _ => Except.ok ⟨[⟨"y", [.I32 5]⟩]⟩ : List Nat → Except String RowBatch) u
            = .ok out →
          (budget_try_acquire ⟨2 ^ 32, 0, []⟩ u.length).2.isSome = true →
          ExternalSort.eval_block
              ⟨⟨fun l => .ok l, fun l => .ok l, fun l => .ok l, fun l => .ok l⟩,
                fun _ => .ok [9, 8], fun _ => .ok ⟨[⟨"y", [.I32 5]⟩]⟩, fun l => l⟩
              ["k"] (some ⟨⟨[]⟩, .None, "root", 0, []⟩) 7 ⟨2 ^ 32, 0, []⟩
              [⟨[⟨"k", [.I64 2, .I64 1, .I64 2]⟩, ⟨"v", [.Str "a", .Str "b", .Str "c"]⟩]⟩]
            = .ok out) :=
  C3_external_sort_amended
    ⟨[⟨"k", [.I64 2, .I64 1, .I64 2]⟩, ⟨"v", [.Str "a", .Str "b", .Str "c"]⟩]⟩
    ["k"] [0]
    ⟨⟨fun l => .ok l, fun l => .ok l, fun l => .ok l, fun l => .ok l⟩,
      fun _ => .ok [9, 8], fun _ => .ok ⟨[⟨"y", [.I32 5]⟩]⟩, fun l => l⟩
    ⟨⟨[]⟩, .None, "root", 0, []⟩ 7 ⟨2 ^ 32, 0, []⟩ (by decide)

/-! ## Filter operator (`emsqrt-operators/src/filter.rs`)

Literal parsing (`str::parse::<i32>` and friends) is Rust standard library
behaviour, external to the repository: the parsers are function parameters
(`LitParsers`).  IEEE float arithmetic appears only through subtraction,
absolute value and comparisons against the machine epsilon, modelled on `Flt`
with NaN propagation (any comparison involving NaN is false).  Rust string
ordering is byte-wise on UTF-8, which agrees with the code-point order of
Lean strings. -/

/-- Modelled from the spec: the external literal parsers
(`literal.parse::<bool>()`, `::<i32>()`, `::<i64>()`, `::<f32>()`,
`::<f64>()` from the Rust standard library). -/
structure LitParsers : Type where
  parseBool : String → Option Bool
  parseI32 : String → Option Int
  parseI64 : String → Option Int
  parseF32 : String → Option Flt
  parseF64 : String → Option Flt

/-- IEEE subtraction on the ordering model: NaN propagates. -/
def fltSub (a b : Flt) : Flt :=
  match a, b with
  | .val x, .val y => .val (x - y)
  | _, _ => .nan

/-- IEEE absolute value: NaN propagates. -/
def fltAbs (a : Flt) : Flt :=
  match a with
  | .val x => .val |x|
  | .nan => .nan

/-- `f32::EPSILON` (2⁻²³) as an exact rational. -/
def EPS32 : ℚ := 1 / 2 ^ 23

/-- `f64::EPSILON` (2⁻⁵²) as an exact rational. -/
def EPS64 : ℚ := 1 / 2 ^ 52

/-- IEEE `<` against a constant: false on NaN. -/
def fltLtConst (a : Flt) (eps : ℚ) : Bool :=
  match a with
  | .val x => decide (x < eps)
  | .nan => false

/-- IEEE `>=` against a constant: false on NaN. -/
def fltGeConst (a : Flt) (eps : ℚ) : Bool :=
  match a with
  | .val x => decide (eps ≤ x)
  | .nan => false

/-- IEEE `<`: false when either side is NaN. -/
def fltLt (a b : Flt) : Bool :=
  match a, b with
  | .val x, .val y => decide (x < y)
  | _, _ => false

/-- IEEE `<=`: false when either side is NaN. -/
def fltLe (a b : Flt) : Bool :=
  match a, b with
  | .val x, .val y => decide (x ≤ y)
  | _, _ => false

/-- `eval_predicate` from `filter.rs`. -/
def eval_predicate (P : LitParsers) (val : Scalar) (op literal : String) :
    Except String Bool :=
  match val with
  | .Null => .ok false
  | .Bool b =>
    match P.parseBool literal with
    | none => .error "cannot parse as bool"
    | some lb =>
      match op with
      | "==" => .ok (b == lb)
      | "!=" => .ok (b != lb)
      | _ => .error "unsupported op for bool"
  | .I32 i =>
    match P.parseI32 literal with
    | none => .error "cannot parse as i32"
    | some li =>
      match op with
      | "==" => .ok (i == li)
      | "!=" => .ok (i != li)
      | "<" => .ok (decide (i < li))
      | "<=" => .ok (decide (i ≤ li))
      | ">" => .ok (decide (li < i))
      | ">=" => .ok (decide (li ≤ i))
      | _ => .error "unknown op"
  | .I64 i =>
    match P.parseI64 literal with
    | none => .error "cannot parse as i64"
    | some li =>
      match op with
      | "==" => .ok (i == li)
      | "!=" => .ok (i != li)
      | "<" => .ok (decide (i < li))
      | "<=" => .ok (decide (i ≤ li))
      | ">" => .ok (decide (li < i))
      | ">=" => .ok (decide (li ≤ i))
      | _ => .error "unknown op"
  | .F32 f =>
    match P.parseF32 literal with
    | none => .error "cannot parse as f32"
    | some lf =>
      match op with
      | "==" => .ok (fltLtConst (fltAbs (fltSub f lf)) EPS32)
      | "!=" => .ok (fltGeConst (fltAbs (fltSub f lf)) EPS32)
      | "<" => .ok (fltLt f lf)
      | "<=" => .ok (fltLe f lf)
      | ">" => .ok (fltLt lf f)
      | ">=" => .ok (fltLe lf f)
      | _ => .error "unknown op"
  | .F64 f =>
    match P.parseF64 literal with
    | none => .error "cannot parse as f64"
    | some lf =>
      match op with
      | "==" => .ok (fltLtConst (fltAbs (fltSub f lf)) EPS64)
      | "!=" => .ok (fltGeConst (fltAbs (fltSub f lf)) EPS64)
      | "<" => .ok (fltLt f lf)
      | "<=" => .ok (fltLe f lf)
      | ">" => .ok (fltLt lf f)
      | ">=" => .ok (fltLe lf f)
      | _ => .error "unknown op"
  | .Str s =>
    match op with
    | "==" => .ok (s == literal)
    | "!=" => .ok (s != literal)
    | "<" => .ok (decide (s < literal))
    | "<=" => .ok (decide (s ≤ literal))
    | ">" => .ok (decide (literal < s))
    | ">=" => .ok (decide (literal ≤ s))
    | _ => .error "unknown op"
  | .Bin _ => .error "cannot filter on binary data"

/-- First index at which `needle` occurs in `hay` (`str::find` at the
character level; the predicates under test are ASCII, where character and
byte indices agree). -/
def strFindAux (needle : List Char) : List Char → Nat → Option Nat
  | [], i => if needle.isPrefixOf ([] : List Char) then some i else none
  | c :: t, i =>
    if needle.isPrefixOf (c :: t) then some i else strFindAux needle t (i + 1)

def strFind (hay needle : String) : Option Nat :=
  strFindAux needle.data hay.data 0

/-- `str::trim` (the literals under test only carry space padding). -/
def trimChars (cs : List Char) : List Char :=
  ((cs.dropWhile (fun c => c = ' ')).reverse.dropWhile (fun c => c = ' ')).reverse

def strTrim (s : String) : String := ⟨trimChars s.data⟩

/-- The operator list of `parse_simple_predicate`, in source order. -/
def predOps : List String := ["==", "!=", "<=", ">=", "<", ">"]

/-- `parse_simple_predicate` from `filter.rs`: first operator (in list
order) found anywhere in the expression splits it. -/
def parse_simple_predicate_go (expr : String) :
    List String → Except String (String × String × String)
  | [] => .error "unparseable predicate"
  | op :: rest =>
    match strFind expr op with
    | some pos =>
      .ok (strTrim ⟨expr.data.take pos⟩, op,
        strTrim ⟨expr.data.drop (pos + op.data.length)⟩)
    | none => parse_simple_predicate_go expr rest

def parse_simple_predicate (expr : String) :
    Except String (String × String × String) :=
  parse_simple_predicate_go expr predOps

/-- Per-row `keep` vector (the source's first loop over the predicate
column, short-circuiting on the first error). -/
def evalKeep (P : LitParsers) (vals : List Scalar) (op lit : String) :
    Except String (List Bool) :=
  match vals with
  | [] => .ok []
  | v :: vt =>
    match eval_predicate P v op lit with
    | .error e => .error e
    | .ok b =>
      match evalKeep P vt op lit with
      | .error e => .error e
      | .ok rest => .ok (b :: rest)

/-- Keep exactly the values whose mask entry is true (the source iterates
the rows of each column and pushes those with `keep[i]`). -/
def maskFilter {α : Type} (keep : List Bool) (vals : List α) : List α :=
  (keep.zip vals).filterMap (fun p => if p.1 then some p.2 else none)

deriving instance DecidableEq for Except

/-- `Filter::eval_block` from `filter.rs`. -/
def Filter.eval_block (P : LitParsers) (expr? : Option String)
    (inputs : List RowBatch) : Except String RowBatch :=
  match inputs.head? with
  | none => .error "missing input"
  | some input =>
    match expr? with
    | none => .ok input
    | some expr =>
      match parse_simple_predicate expr with
      | .error e => .error e
      | .ok (col_name, op, lit) =>
        match input.columns.findIdx? (fun c => c.name = col_name) with
        | none => .error "column not found"
        | some col_idx =>
          match evalKeep P (input.columns.getD col_idx defCol).values op lit with
          | .error e => .error e
          | .ok keep =>
            .ok ⟨input.columns.map (fun c => ⟨c.name, maskFilter keep c.values⟩)⟩

theorem maskFilter_nil {α : Type} (vals : List α) :
    maskFilter [] vals = [] := rfl

theorem maskFilter_cons {α : Type} (k : Bool) (kt : List Bool) (v : α)
    (vt : List α) :
    maskFilter (k :: kt) (v :: vt)
      = if k then v :: maskFilter kt vt else maskFilter kt vt := by
  cases k <;> simp [maskFilter]

theorem maskFilter_length {α : Type} {keep : List Bool} {vals : List α}
    (h : keep.length = vals.length) :
    (maskFilter keep vals).length = keep.count true := by
  induction keep generalizing vals with
  | nil => simp [maskFilter]
  | cons k kt ih =>
    cases vals with
    | nil => simp at h
    | cons v vt =>
      have h' : kt.length = vt.length := by simpa using h
      rw [maskFilter_cons]
      cases k <;> simp [ih h', List.count_cons]

/-- Row `i` of a column list (transpose helper). -/
def colsT (n : Nat) (cols : List (List Scalar)) : List (List Scalar) :=
  (List.range n).map (fun i => cols.map (fun c => c.getD i .Null))

theorem getD_succ_tail {α : Type} (c : List α) (i : Nat) (d : α) :
    c.getD (i + 1) d = c.tail.getD i d := by
  cases c <;> rfl

theorem colsT_succ (n : Nat) (cols : List (List Scalar)) :
    colsT (n + 1) cols
      = (cols.map (fun c => c.getD 0 .Null)) :: colsT n (cols.map List.tail) := by
  unfold colsT
  rw [List.range_succ_eq_map]
  simp only [List.map_cons, List.map_map]
  congr 1
  apply List.map_congr_left
  intro i _
  apply List.map_congr_left
  intro c _
  exact getD_succ_tail c i _

theorem colsT_mask (keep : List Bool) (cols : List (List Scalar))
    (h : ∀ c ∈ cols, c.length = keep.length) :
    colsT (keep.count true) (cols.map (maskFilter keep))
      = maskFilter keep (colsT keep.length cols) := by
  induction keep generalizing cols with
  | nil =>
    simp [colsT, maskFilter]
  | cons k kt ih =>
    have htails : ∀ c ∈ cols.map List.tail, c.length = kt.length := by
      intro c hc
      obtain ⟨c₀, hc₀, rfl⟩ := List.mem_map.mp hc
      have := h _ hc₀
      cases c₀ with
      | nil => simp at this
      | cons v vt => simpa using this
    cases k with
    | true =>
      have hmasked : cols.map (maskFilter (true :: kt))
          = cols.map (fun c => c.getD 0 .Null :: maskFilter kt c.tail) := by
        apply List.map_congr_left
        intro c hc
        cases c with
        | nil =>
          have := h _ hc
          simp at this
        | cons v vt =>
          rw [maskFilter_cons]
          simp
      rw [hmasked,
        show ((true :: kt).count true) = kt.count true + 1 by simp [List.count_cons],
        show ((true :: kt).length) = kt.length + 1 from rfl,
        colsT_succ, colsT_succ, maskFilter_cons, if_pos rfl]
      congr 1
      · rw [List.map_map]
        apply List.map_congr_left
        intro c _
        rfl
      · rw [List.map_map,
          show List.map (List.tail ∘ fun c => c.getD 0 .Null :: maskFilter kt c.tail) cols
            = List.map (maskFilter kt) (List.map List.tail cols) from by
              rw [List.map_map]
              apply List.map_congr_left
              intro c _
              rfl]
        exact ih (cols.map List.tail) htails
    | false =>
      have hmasked : cols.map (maskFilter (false :: kt))
          = List.map (maskFilter kt) (List.map List.tail cols) := by
        rw [List.map_map]
        apply List.map_congr_left
        intro c hc
        cases c with
        | nil =>
          have := h _ hc
          simp at this
        | cons v vt =>
          rw [maskFilter_cons]
          simp
      rw [hmasked,
        show ((false :: kt).count true) = kt.count true by simp [List.count_cons],
        show ((false :: kt).length) = kt.length + 1 from rfl,
        colsT_succ, maskFilter_cons]
      simp only [Bool.false_eq_true, if_false]
      exact ih (cols.map List.tail) htails

theorem rows_eq_colsT (b : RowBatch) :
    RowBatch.rows b = colsT b.num_rows (b.columns.map (fun c => c.values)) := by
  unfold RowBatch.rows colsT rowAt
  apply List.map_congr_left
  intro i _
  rw [List.map_map]
  rfl

theorem evalKeep_forall (P : LitParsers) {vals : List Scalar}
    {keep : List Bool} {op lit : String}
    (h : evalKeep P vals op lit = .ok keep) :
    List.Forall₂ (fun v k => eval_predicate P v op lit = .ok k) vals keep := by
  induction vals generalizing keep with
  | nil =>
    unfold evalKeep at h
    cases h
    exact .nil
  | cons v vt ih =>
    unfold evalKeep at h
    cases hv : eval_predicate P v op lit with
    | error e =>
      rw [hv] at h
      exact absurd h (by simp)
    | ok kb =>
      rw [hv] at h
      cases hrest : evalKeep P vt op lit with
      | error e =>
        rw [hrest] at h
        exact absurd h (by simp)
      | ok krest =>
        rw [hrest] at h
        cases h
        exact .cons hv (ih hrest)

theorem evalKeep_error_of_bad (P : LitParsers) {vals : List Scalar}
    {op lit : String} {v : Scalar} (hv : v ∈ vals)
    (hbad : ∀ b, eval_predicate P v op lit ≠ .ok b) :
    ∃ e, evalKeep P vals op lit = .error e := by
  induction vals with
  | nil => simp at hv
  | cons w wt ih =>
    unfold evalKeep
    rcases List.mem_cons.mp hv with rfl | hvt
    · cases hw : eval_predicate P v op lit with
      | error e => exact ⟨e, rfl⟩
      | ok b => exact absurd hw (hbad b)
    · cases hw : eval_predicate P w op lit with
      | error e => exact ⟨e, rfl⟩
      | ok b =>
        obtain ⟨e, he⟩ := ih hvt
        rw [he]
        exact ⟨e, rfl⟩

/-- C7: for a parseable predicate `col OP literal` over a column of the
batch, `Filter::eval_block` keeps the input's column names in order and
returns exactly the rows whose predicate-column value evaluates to true, in
input order; a `Null` predicate value never satisfies any predicate; and a
`Bin` value in the predicate column makes evaluation fail with an error. -/
theorem C7_filter_eval_block (P : LitParsers) (input : RowBatch)
    (expr col_name op lit : String) (col_idx : Nat)
    (hparse : parse_simple_predicate expr = .ok (col_name, op, lit))
    (hcol : input.columns.findIdx? (fun c => c.name = col_name) = some col_idx)
    (hwf : input.Wf) :
    (∀ keep, evalKeep P (input.columns.getD col_idx defCol).values op lit = .ok keep →
      ∃ out, Filter.eval_block P (some expr) [input] = .ok out
        ∧ out.columns.map Column.name = input.columns.map Column.name
        ∧ RowBatch.rows out = maskFilter keep (RowBatch.rows input)
        ∧ List.Forall₂ (fun v k => eval_predicate P v op lit = .ok k)
            (input.columns.getD col_idx defCol).values keep)
    ∧ (∀ (op' lit' : String), eval_predicate P .Null op' lit' = .ok false)
    ∧ (∀ bs, Scalar.Bin bs ∈ (input.columns.getD col_idx defCol).values →
        ∃ e, Filter.eval_block P (some expr) [input] = .error e) := by
  have hne : input.columns ≠ [] := by
    intro hc
    rw [hc] at hcol
    simp at hcol
  have hidx : col_idx < input.columns.length := by
    obtain ⟨hlt, -⟩ := (List.findIdx?_eq_some_iff_getElem).mp hcol
    exact hlt
  have hmem : input.columns.getD col_idx defCol ∈ input.columns := by
    rw [List.getD_eq_getElem?_getD, List.getElem?_eq_getElem hidx]
    exact List.getElem_mem _
  have hplen : (input.columns.getD col_idx defCol).values.length = input.num_rows :=
    hwf _ hmem
  refine ⟨?_, fun _ _ => rfl, ?_⟩
  · intro keep hkeep
    have hkeeplen : keep.length = input.num_rows := by
      have hf := evalKeep_forall P hkeep
      rw [← hplen]
      exact (List.Forall₂.length_eq hf).symm
    refine ⟨⟨input.columns.map (fun c => ⟨c.name, maskFilter keep c.values⟩)⟩,
      ?_, ?_, ?_, evalKeep_forall P hkeep⟩
    · show Filter.eval_block P (some expr) [input] = _
      unfold Filter.eval_block
      simp only [List.head?, hparse, hcol, hkeep]
    · rw [List.map_map]
      rfl
    · have hcollen : ∀ c ∈ input.columns.map (fun c => c.values),
          c.length = keep.length := by
        intro c hc
        obtain ⟨c₀, hc₀, rfl⟩ := List.mem_map.mp hc
        rw [hwf _ hc₀, hkeeplen]
      have hmask := colsT_mask keep (input.columns.map (fun c => c.values)) hcollen
      have hnum : RowBatch.num_rows
          ⟨input.columns.map (fun c => ⟨c.name, maskFilter keep c.values⟩)⟩
          = keep.count true := by
        cases hc : input.columns with
        | nil => exact absurd hc hne
        | cons c cs =>
          show (maskFilter keep c.values).length = keep.count true
          apply maskFilter_length
          rw [hwf c (by rw [hc]; exact List.mem_cons_self c cs), hkeeplen]
      rw [rows_eq_colsT, hnum]
      rw [show (⟨input.columns.map (fun c => ⟨c.name, maskFilter keep c.values⟩)⟩ :
          RowBatch).columns.map (fun c => c.values)
          = (input.columns.map (fun c => c.values)).map (maskFilter keep) from by
        rw [List.map_map, List.map_map]
        rfl]
      rw [hmask, rows_eq_colsT, hkeeplen]
  · intro bs hbs
    obtain ⟨e, he⟩ := @evalKeep_error_of_bad P
      (input.columns.getD col_idx defCol).values op lit (.Bin bs) hbs
      (fun b => by simp [eval_predicate])
    refine ⟨e, ?_⟩
    unfold Filter.eval_block
    simp only [List.head?, hparse, hcol, he]

/-- Witness for C7: predicate `a > 5` over a three-row column with a null. -/
theorem C7_filter_eval_block_witness :
    ∃ out, Filter.eval_block
        ⟨fun _ => none, fun _ => none,
          fun s => if s = "5" then some 5 else none, fun _ => none, fun _ => none⟩
        (some "a > 5")
        [⟨[⟨"a", [.I64 3, .I64 7, .Null]⟩]⟩] = .ok out
      ∧ out.columns.map Column.name
          = (⟨[⟨"a", [.I64 3, .I64 7, .Null]⟩]⟩ : RowBatch).columns.map Column.name
      ∧ RowBatch.rows out
          = maskFilter [false, true, false]
              (RowBatch.rows ⟨[⟨"a", [.I64 3, .I64 7, .Null]⟩]⟩)
      ∧ List.Forall₂
          (fun v k => eval_predicate
            ⟨fun _ => none, fun _ => none,
              fun s => if s = "5" then some 5 else none, fun _ => none, fun _ => none⟩
            v ">" "5" = .ok k)
          ((⟨[⟨"a", [.I64 3, .I64 7, .Null]⟩]⟩ : RowBatch).columns.getD 0 defCol).values
          [false, true, false] :=
  (C7_filter_eval_block
    ⟨fun _ => none, fun _ => none,
      fun s => if s = "5" then some 5 else none, fun _ => none, fun _ => none⟩
    ⟨[⟨"a", [.I64 3, .I64 7, .Null]⟩]⟩ "a > 5" "a" ">" "5" 0
    (by decide) (by decide)
    (by intro c hc; simp at hc; subst hc; rfl)).1 [false, true, false] (by decide)

/-! ## Work estimation (`emsqrt-planner/src/cost.rs`)

Selectivities are the source's `f64` literals, modelled as exact rationals;
`(x as u64)` on a non-negative float is truncation toward zero, modelled as
the floor. -/

/-- Rust `str::contains::<&str>` via the character-level find. -/
def strContains (s sub : String) : Bool :=
  (strFind s sub).isSome

/-- `estimate_filter_selectivity` from `cost.rs`: the if-chain in source
order (`'='` without `"!="`, then `"!="`, then `'<'`/`'>'`, then `"IS
NULL"`, then `"IS NOT NULL"`, else the default). -/
def estimate_filter_selectivity (expr : String) : ℚ :=
  if expr.data.contains '=' && !(strContains expr "!=") then 0.1
  else if strContains expr "!=" then 0.9
  else if expr.data.contains '>' || expr.data.contains '<' then 0.33
  else if strContains expr "IS NULL" then 0.05
  else if strContains expr "IS NOT NULL" then 0.95
  else 0.5

/-- The `Filter` arm of `estimate_work`'s walk:
`((in_rows as f64 * selectivity) as u64).max(1)`. -/
def estimate_filter_rows (in_rows : Nat) (expr : String) : Nat :=
  max (Int.toNat ⌊(in_rows : ℚ) * estimate_filter_selectivity expr⌋) 1

/-- `if` on a `Bool` condition known `true` (kept at `b = true` form, the
shape Lean's coercion produces). -/
theorem iteB_true {α : Sort u} {b : Bool} (h : b = true) (x y : α) :
    (if b = true then x else y) = x := by
  subst h; rfl

/-- `if` on a `Bool` condition known `false`. -/
theorem iteB_false {α : Sort u} {b : Bool} (h : b = false) (x y : α) :
    (if b = true then x else y) = y := by
  subst h; rfl

/-- C9 counterexample: the claim's own example `"age >= 5"` contains `'='`
and no `"!="`, so the first branch fires and the selectivity is 0.1, not the
claimed 0.33; on 1000 input rows the Filter estimate is 100 rows. -/
theorem C9_filter_selectivity_counterexample :
    estimate_filter_selectivity "age >= 5" = 0.1
    ∧ (0.1 : ℚ) ≠ 0.33
    ∧ estimate_filter_rows 1000 "age >= 5" = 100 := by
  refine ⟨rfl, by norm_num, ?_⟩
  show max (Int.toNat ⌊(1000 : ℚ) * estimate_filter_selectivity "age >= 5"⌋) 1 = 100
  rw [show estimate_filter_selectivity "age >= 5" = 0.1 from rfl]
  norm_num
  rfl

/-- C9 amended: the selectivity is 0.1 for any expression containing `'='`
but not `"!="` — which includes `">="` and `"<="` — 0.9 when `"!="` occurs,
0.33 for `'<'` or `'>'` only when no `'='` occurs at all, 0.05 for
`"IS NULL"` and 0.95 for `"IS NOT NULL"` when no earlier pattern matched,
0.5 otherwise; and the Filter node's estimated output rows are
`max(1, floor(in_rows × selectivity))`, not the bare product. -/
theorem C9_filter_selectivity_amended (expr : String) (in_rows : Nat) :
    (expr.data.contains '=' = true → strContains expr "!=" = false →
      estimate_filter_selectivity expr = 0.1)
    ∧ (strContains expr "!=" = true → estimate_filter_selectivity expr = 0.9)
    ∧ (expr.data.contains '=' = false → strContains expr "!=" = false →
        (expr.data.contains '>' = true ∨ expr.data.contains '<' = true) →
        estimate_filter_selectivity expr = 0.33)
    ∧ (expr.data.contains '=' = false → strContains expr "!=" = false →
        expr.data.contains '>' = false → expr.data.contains '<' = false →
        strContains expr "IS NULL" = true →
        estimate_filter_selectivity expr = 0.05)
    ∧ (expr.data.contains '=' = false → strContains expr "!=" = false →
        expr.data.contains '>' = false → expr.data.contains '<' = false →
        strContains expr "IS NULL" = false →
        strContains expr "IS NOT NULL" = true →
        estimate_filter_selectivity expr = 0.95)
    ∧ (expr.data.contains '=' = false → strContains expr "!=" = false →
        expr.data.contains '>' = false → expr.data.contains '<' = false →
        strContains expr "IS NULL" = false →
        strContains expr "IS NOT NULL" = false →
        estimate_filter_selectivity expr = 0.5)
    ∧ estimate_filter_rows in_rows expr
        = max (Int.toNat ⌊(in_rows : ℚ) * estimate_filter_selectivity expr⌋) 1 := by
  unfold estimate_filter_selectivity
  refine ⟨?_, ?_, ?_, ?_, ?_, ?_, rfl⟩
  · intro h₁ h₂
    rw [iteB_true (by rw [h₁, h₂]; rfl)]
  · intro h₂
    rw [iteB_false (by rw [h₂]; exact Bool.and_false _),
      iteB_true h₂]
  · intro h₁ h₂ h₃
    rw [iteB_false (by rw [h₁]; rfl), iteB_false h₂]
    rcases h₃ with h₃ | h₃
    · rw [iteB_true (by rw [h₃]; rfl)]
    · rw [iteB_true (by rw [h₃]; exact Bool.or_true _)]
  · intro h₁ h₂ h₃ h₄ h₅
    rw [iteB_false (by rw [h₁]; rfl), iteB_false h₂,
      iteB_false (by rw [h₃, h₄]; rfl), iteB_true h₅]
  · intro h₁ h₂ h₃ h₄ h₅ h₆
    rw [iteB_false (by rw [h₁]; rfl), iteB_false h₂,
      iteB_false (by rw [h₃, h₄]; rfl), iteB_false h₅, iteB_true h₆]
  · intro h₁ h₂ h₃ h₄ h₅ h₆
    rw [iteB_false (by rw [h₁]; rfl), iteB_false h₂,
      iteB_false (by rw [h₃, h₄]; rfl), iteB_false h₅, iteB_false h₆]

/-- Closed witness for `C9_filter_selectivity_amended` at concrete inputs:
each clause's hypotheses are discharged by one of `"a >= 1"`, `"a != 1"`,
`"a < 1"`, `"x IS NULL"`, `"x IS NOT NULL"`, `"foo"`. -/
theorem C9_filter_selectivity_amended_witness :
    estimate_filter_selectivity "a >= 1" = 0.1
    ∧ estimate_filter_selectivity "a != 1" = 0.9
    ∧ estimate_filter_selectivity "a < 1" = 0.33
    ∧ estimate_filter_selectivity "x IS NULL" = 0.05
    ∧ estimate_filter_selectivity "x IS NOT NULL" = 0.95
    ∧ estimate_filter_selectivity "foo" = 0.5
    ∧ estimate_filter_rows 7 "a < 1"
        = max (Int.toNat ⌊(7 : ℚ) * estimate_filter_selectivity "a < 1"⌋) 1 :=
  ⟨(C9_filter_selectivity_amended "a >= 1" 0).1 rfl rfl,
   (C9_filter_selectivity_amended "a != 1" 0).2.1 rfl,
   (C9_filter_selectivity_amended "a < 1" 0).2.2.1 rfl rfl (Or.inr rfl),
   (C9_filter_selectivity_amended "x IS NULL" 0).2.2.2.1 rfl rfl rfl rfl rfl,
   (C9_filter_selectivity_amended "x IS NOT NULL" 0).2.2.2.2.1 rfl rfl rfl rfl rfl rfl,
   (C9_filter_selectivity_amended "foo" 0).2.2.2.2.2.1 rfl rfl rfl rfl rfl rfl,
   (C9_filter_selectivity_amended "a < 1" 7).2.2.2.2.2.2⟩

/-! ## Frontier tracking (`emsqrt-te/src/frontier.rs`)

`BlockId` is a `Nat`. The Rust `HashMap`/`HashSet` are modelled as
association lists / lists kept in insertion order; the Rust iteration order
is arbitrary, and every property proved below is independent of the order
chosen. -/

/-- `*in_degree.entry(v).or_default() += 1`. -/
def alIncr : List (Nat × Nat) → Nat → List (Nat × Nat)
  | [], k => [(k, 1)]
  | (k', d) :: rest, k =>
    if k' = k then (k', d + 1) :: rest else (k', d) :: alIncr rest k

/-- `in_degree.entry(u).or_default();` — touch, inserting 0 if absent. -/
def alTouch : List (Nat × Nat) → Nat → List (Nat × Nat)
  | [], k => [(k, 0)]
  | (k', d) :: rest, k =>
    if k' = k then (k', d) :: rest else (k', d) :: alTouch rest k

/-- `dependents.entry(u).or_default().push(v)`. -/
def alPush : List (Nat × List Nat) → Nat → Nat → List (Nat × List Nat)
  | [], k, v => [(k, [v])]
  | (k', vs) :: rest, k, v =>
    if k' = k then (k', vs ++ [v]) :: rest else (k', vs) :: alPush rest k v

/-- `map.get(&k)`. -/
def alGet {α : Type} : List (Nat × α) → Nat → Option α
  | [], _ => none
  | (k', a) :: rest, k => if k' = k then some a else alGet rest k

/-- `*in_degree.get_mut(&v) -= 1` — usize wrapping subtraction, as in the
source (underflow is unreachable from `new`, but the model keeps the
machine semantics); absent keys are left untouched. -/
def alDecr : List (Nat × Nat) → Nat → List (Nat × Nat)
  | [], _ => []
  | (k', d) :: rest, k =>
    if k' = k then (k', wrapSub d 1) :: rest else (k', d) :: alDecr rest k

structure FrontierTracker : Type where
  in_degree : List (Nat × Nat)
  dependents : List (Nat × List Nat)
  ready : List Nat
  live : List Nat
  max_frontier : Nat
  depth : Nat

/-- `FrontierTracker::new`: per edge `(u, v)` bump `in_degree[v]`, push `v`
onto `dependents[u]`, and touch `in_degree[u]`; `ready` collects the keys
of in-degree zero. -/
def FrontierTracker.new (edges : List (Nat × Nat)) : FrontierTracker :=
  let maps := edges.foldl
    (fun (st : List (Nat × Nat) × List (Nat × List Nat)) uv =>
      (alTouch (alIncr st.1 uv.2) uv.1, alPush st.2 uv.1 uv.2))
    ([], [])
  { in_degree := maps.1
    dependents := maps.2
    ready := (maps.1.filter (fun kv => kv.2 == 0)).map (fun kv => kv.1)
    live := []
    max_frontier := 0
    depth := 0 }

/-- The dependents loop of `step`: decrement each dependent's in-degree,
queueing it when the count reaches zero. -/
def stepDeps (ind : List (Nat × Nat)) (ready vs : List Nat) :
    List (Nat × Nat) × List Nat :=
  vs.foldl
    (fun (st : List (Nat × Nat) × List Nat) v =>
      match alGet st.1 v with
      | none => st
      | some d =>
        (alDecr st.1 v, if wrapSub d 1 = 0 then st.2 ++ [v] else st.2))
    (ind, ready)

/-- `FrontierTracker::step`: pop the front of `ready`, insert the block
into `live`, sample `max_frontier` from the live size, bump `depth`,
advance the dependents, then remove the block from `live`. -/
def FrontierTracker.step (t : FrontierTracker) : Option (Nat × FrontierTracker) :=
  match t.ready with
  | [] => none
  | b :: rest =>
    some (b,
      { in_degree := (stepDeps t.in_degree rest ((alGet t.dependents b).getD [])).1
        dependents := t.dependents
        ready := (stepDeps t.in_degree rest ((alGet t.dependents b).getD [])).2
        live := (if b ∈ t.live then t.live else t.live ++ [b]).erase b
        max_frontier :=
          max t.max_frontier (if b ∈ t.live then t.live else t.live ++ [b]).length
        depth := t.depth + 1 })

/-- `while tracker.step().is_some() {}`, fueled; the source loop terminates
because enqueues are bounded, and the properties below hold for every
fuel. -/
def FrontierTracker.run : Nat → FrontierTracker → FrontierTracker
  | 0, t => t
  | fuel + 1, t =>
    match t.step with
    | none => t
    | some bt => FrontierTracker.run fuel bt.2

/-- `compute_max_frontier`: 0 for an empty order, otherwise build the
`(dep, block)` edges, run the tracker to exhaustion (fuel
`3 × |edges| + 1` dominates every possible number of steps), and read off
`max_frontier`. -/
def compute_max_frontier (order : List (Nat × List Nat)) : Nat :=
  if order.isEmpty then 0
  else
    let edges := order.foldl
      (fun acc bd => acc ++ bd.2.map (fun dep => (dep, bd.1))) []
    (FrontierTracker.run (3 * edges.length + 1)
      (FrontierTracker.new edges)).max_frontier

/-- One step from an empty live set leaves the live set empty again (the
stepped block is inserted and then removed) and samples a frontier of
exactly one block. -/
theorem frontier_step_preserves (t : FrontierTracker) (b : Nat)
    (t' : FrontierTracker) (hs : t.step = some (b, t')) (h1 : t.live = []) :
    t'.live = [] ∧ t'.max_frontier = max t.max_frontier 1 := by
  unfold FrontierTracker.step at hs
  cases hready : t.ready with
  | nil => rw [hready] at hs; exact absurd hs (by simp)
  | cons hd rest =>
    rw [hready] at hs
    simp only [Option.some.injEq, Prod.mk.injEq] at hs
    obtain ⟨hb, ht'⟩ := hs
    subst ht'
    have hmem : ¬ hd ∈ t.live := by rw [h1]; exact List.not_mem_nil hd
    constructor
    · show (if hd ∈ t.live then t.live else t.live ++ [hd]).erase hd = []
      rw [if_neg hmem, h1]
      simp
    · show max t.max_frontier
        (if hd ∈ t.live then t.live else t.live ++ [hd]).length
        = max t.max_frontier 1
      rw [if_neg hmem, h1]
      simp

/-- The fueled loop preserves `live = [] ∧ max_frontier ≤ 1`. -/
theorem frontier_run_inv (fuel : Nat) :
    ∀ t : FrontierTracker, t.live = [] → t.max_frontier ≤ 1 →
      (FrontierTracker.run fuel t).live = []
      ∧ (FrontierTracker.run fuel t).max_frontier ≤ 1 := by
  induction fuel with
  | zero => intro t h1 h2; exact ⟨h1, h2⟩
  | succ n ih =>
    intro t h1 h2
    show (match t.step with
      | none => t
      | some bt => FrontierTracker.run n bt.2).live = [] ∧
      (match t.step with
      | none => t
      | some bt => FrontierTracker.run n bt.2).max_frontier ≤ 1
    cases hs : t.step with
    | none => exact ⟨h1, h2⟩
    | some bt =>
      have hpres := frontier_step_preserves t bt.1 bt.2 (by rw [hs]) h1
      exact ih bt.2 hpres.1
        (hpres.2 ▸ Nat.max_le.mpr ⟨h2, Nat.le_refl 1⟩)

/-- C10: `compute_max_frontier` returns 0 for the empty order and at most
1 for every order: each `step` inserts the popped block into the (empty)
live set, samples the maximum from a singleton, and removes the same block
before returning, so the sampled frontier never exceeds one block. -/
theorem C10_compute_max_frontier :
    compute_max_frontier [] = 0
    ∧ ∀ order : List (Nat × List Nat), compute_max_frontier order ≤ 1 := by
  constructor
  · rfl
  · intro order
    unfold compute_max_frontier
    by_cases h : order.isEmpty
    · rw [if_pos h]; exact Nat.zero_le 1
    · rw [if_neg h]
      exact (frontier_run_inv _ _ rfl (Nat.zero_le 1)).2

/-- Closed witness for `C10_compute_max_frontier`: a diamond whose true
frontier is larger than one still reports at most 1. -/
theorem C10_compute_max_frontier_witness :
    compute_max_frontier [(0, []), (1, [0]), (2, [0]), (3, [1, 2])] ≤ 1 :=
  C10_compute_max_frontier.2 [(0, []), (1, [0]), (2, [0]), (3, [1, 2])]

/-! ## Run manifest hashes (`emsqrt-exec/src/runtime.rs`)

Modelled from the spec: BLAKE3-256 and the serde_json serialization of the
physical plan, the bindings, and the TE order are external crates; they
enter the model as the parameter structure `HashExt`, with digests as byte
lists. The operator table that `Engine::run` builds from the bindings, and
the wall clock, are likewise modelled as parameters (`ops`, the `now`
arguments): the claim theorem quantifies over them, which is exactly the
claimed independence of the manifest hashes from execution. `tree_eval.rs`
is absent from the source snapshot, so `TeBlock` carries the fields the
spec gives it and `Engine::run` reads (`id`, `op`, `deps`). -/

/-- `TeBlock` (spec §3: `{id, op, deps}`; the optional hint fields are not
read by `Engine::run`). -/
structure TeBlock : Type where
  id : Nat
  op : Nat
  deps : List Nat
deriving DecidableEq, Repr

/-- `RunManifest` fields touched by `Engine::run` (`manifest.rs`); the
random `ManifestId` and the engine version string are omitted. -/
structure RunManifest : Type where
  plan_hash : List Nat
  te_hash : List Nat
  started_ms : Nat
  finished_ms : Nat
  outputs_digest : Option (List Nat)
deriving DecidableEq, Repr

/-- Modelled from the spec: the serde_json serializations (fallible) of the
plan, the bindings, and the TE order, and BLAKE3-256 over a byte string. -/
structure HashExt (Plan Bindings : Type) : Type where
  serPlan : Plan → Except String (List Nat)
  serBindings : Bindings → Except String (List Nat)
  serOrder : List TeBlock → Except String (List Nat)
  hashBytes : List Nat → List Nat

/-- `hash_serde` from `hash.rs`: serialize, then hash the bytes. -/
def hash_serde {α : Type} (ser : α → Except String (List Nat))
    (hashBytes : List Nat → List Nat) (v : α) : Except String (List Nat) :=
  match ser v with
  | .error e => .error e
  | .ok bytes => .ok (hashBytes bytes)

/-- `xor_hashes` from `runtime.rs`: `out[i] = a.0[i] ^ b.0[i]` for
`i in 0..32`. -/
def xor_hashes (a b : List Nat) : List Nat :=
  (List.range 32).map (fun i => Nat.xor (a.getD i 0) (b.getD i 0))

/-- `HashMap::insert` on an association list: overwrite or append. -/
def alInsert {α : Type} : List (Nat × α) → Nat → α → List (Nat × α)
  | [], k, a => [(k, a)]
  | (k', a') :: rest, k, a =>
    if k' = k then (k', a) :: rest else (k', a') :: alInsert rest k a

/-- `HashMap::remove` on an association list (drop the first match). -/
def alRemove {α : Type} : List (Nat × α) → Nat → List (Nat × α)
  | [], _ => []
  | (k', a') :: rest, k =>
    if k' = k then rest else (k', a') :: alRemove rest k

/-- The input-gathering loop of `Engine::run`: for each dependency in
order, *move* its result out of the map (`results.remove`), failing if it
is absent. -/
def gatherDeps : List Nat → List (Nat × RowBatch) →
    Except String (List RowBatch × List (Nat × RowBatch))
  | [], res => .ok ([], res)
  | d :: ds, res =>
    match alGet res d with
    | none => .error ("missing dependency block result for " ++ toString d)
    | some batch =>
      match gatherDeps ds (alRemove res d) with
      | .error e => .error e
      | .ok (bs, res') => .ok (batch :: bs, res')

/-- The sequential block loop of `Engine::run`: gather inputs, look the
operator up by op id, evaluate, store the output under the block id. -/
def execBlocks (ops : Nat → Option (List RowBatch → Except String RowBatch)) :
    List TeBlock → List (Nat × RowBatch) →
    Except String (List (Nat × RowBatch))
  | [], res => .ok res
  | b :: bs, res =>
    match gatherDeps b.deps res with
    | .error e => .error e
    | .ok (inputs, res') =>
      match ops b.op with
      | none => .error ("no operator bound for op id " ++ toString b.op)
      | some f =>
        match f inputs with
        | .error e => .error ("Operator: " ++ e)
        | .ok out => execBlocks ops bs (alInsert res' b.id out)

/-- `Engine::run`: hash the plan, the bindings, and the TE order up front,
fold the plan and bindings digests with `xor_hashes`, then execute the
blocks in TE order; any failure aborts the run, and a successful run's
manifest carries the two precomputed hashes. -/
def Engine.run {Plan Bindings : Type} (ext : HashExt Plan Bindings)
    (ops : Nat → Option (List RowBatch → Except String RowBatch))
    (plan : Plan) (bindings : Bindings) (order : List TeBlock)
    (now_start now_end : Nat) : Except String RunManifest :=
  match hash_serde ext.serPlan ext.hashBytes plan with
  | .error e => .error ("Hash: " ++ e)
  | .ok plan_h =>
    match hash_serde ext.serBindings ext.hashBytes bindings with
    | .error e => .error ("Hash: " ++ e)
    | .ok bindings_h =>
      match hash_serde ext.serOrder ext.hashBytes order with
      | .error e => .error ("Hash: " ++ e)
      | .ok te_h =>
        match execBlocks ops order [] with
        | .error e => .error e
        | .ok _ =>
          .ok { plan_hash := xor_hashes plan_h bindings_h
                te_hash := te_h
                started_ms := now_start
                finished_ms := now_end
                outputs_digest := none }

/-- C8: a successful run's manifest has `plan_hash = H(plan) ⊕ H(bindings)`
byte-wise and `te_hash = H(te.order)`, where the digests exist (were
computed) independently of the block loop; consequently two successful runs
with the same plan, bindings, and TE order — under arbitrary, possibly
different, operator tables and clocks — carry identical `plan_hash` and
`te_hash`. The XOR is byte-wise: output byte `i` is `a[i] ^^^ b[i]` for
each `i < 32`. -/
theorem C8_manifest_hashes {Plan Bindings : Type} (ext : HashExt Plan Bindings)
    (ops₁ ops₂ : Nat → Option (List RowBatch → Except String RowBatch))
    (plan : Plan) (bindings : Bindings) (order : List TeBlock)
    (n₁ n₂ n₃ n₄ : Nat) (m₁ m₂ : RunManifest)
    (h₁ : Engine.run ext ops₁ plan bindings order n₁ n₂ = .ok m₁)
    (h₂ : Engine.run ext ops₂ plan bindings order n₃ n₄ = .ok m₂) :
    (∃ ph bh th,
      hash_serde ext.serPlan ext.hashBytes plan = .ok ph
      ∧ hash_serde ext.serBindings ext.hashBytes bindings = .ok bh
      ∧ hash_serde ext.serOrder ext.hashBytes order = .ok th
      ∧ m₁.plan_hash = xor_hashes ph bh
      ∧ m₁.te_hash = th)
    ∧ m₁.plan_hash = m₂.plan_hash
    ∧ m₁.te_hash = m₂.te_hash
    ∧ (∀ a b : List Nat, (xor_hashes a b).length = 32
        ∧ ∀ i : Nat, i < 32 →
            (xor_hashes a b).getD i 0 = Nat.xor (a.getD i 0) (b.getD i 0)) := by
  unfold Engine.run at h₁ h₂
  cases hp : hash_serde ext.serPlan ext.hashBytes plan with
  | error e => rw [hp] at h₁; exact absurd h₁ (by simp)
  | ok ph =>
    rw [hp] at h₁ h₂
    cases hb : hash_serde ext.serBindings ext.hashBytes bindings with
    | error e => rw [hb] at h₁; exact absurd h₁ (by simp)
    | ok bh =>
      rw [hb] at h₁ h₂
      cases ht : hash_serde ext.serOrder ext.hashBytes order with
      | error e => rw [ht] at h₁; exact absurd h₁ (by simp)
      | ok th =>
        rw [ht] at h₁ h₂
        cases he₁ : execBlocks ops₁ order [] with
        | error e => rw [he₁] at h₁; exact absurd h₁ (by simp)
        | ok r₁ =>
          rw [he₁] at h₁
          cases he₂ : execBlocks ops₂ order [] with
          | error e => rw [he₂] at h₂; exact absurd h₂ (by simp)
          | ok r₂ =>
            rw [he₂] at h₂
            simp only [Except.ok.injEq] at h₁ h₂
            subst h₁; subst h₂
            refine ⟨⟨ph, bh, th, rfl, rfl, rfl, rfl, rfl⟩, rfl, rfl, ?_⟩
            intro a b
            refine ⟨by simp [xor_hashes], ?_⟩
            intro i hi
            simp [xor_hashes, List.getD_eq_getElem?_getD, List.getElem?_map,
              List.getElem?_range, hi]

/-- A concrete `HashExt` instance used only to witness `C8_manifest_hashes`. -/
def hashExtW : HashExt Nat Nat :=
  ⟨fun n => .ok [n], fun n => .ok [n + 1],
    fun bs => .ok (bs.map TeBlock.id), fun bs => bs ++ [7]⟩

/-- A concrete two-block TE order used only to witness `C8_manifest_hashes`. -/
def orderW : List TeBlock := [⟨0, 0, []⟩, ⟨1, 0, [0]⟩]

/-- The manifest the witness runs produce, up to the clock readings. -/
def manifestW (s e : Nat) : RunManifest :=
  ⟨xor_hashes [3, 7] [5, 7], [0, 1, 7], s, e, none⟩

/-- Closed witness for `C8_manifest_hashes`: a concrete two-block order run
under two different operator tables and clocks yields manifests with the
same hashes. -/
theorem C8_manifest_hashes_witness :
    (∃ ph bh th,
      hash_serde hashExtW.serPlan hashExtW.hashBytes 3 = .ok ph
      ∧ hash_serde hashExtW.serBindings hashExtW.hashBytes 4 = .ok bh
      ∧ hash_serde hashExtW.serOrder hashExtW.hashBytes orderW = .ok th
      ∧ (manifestW 10 11).plan_hash = xor_hashes ph bh
      ∧ (manifestW 10 11).te_hash = th)
    ∧ (manifestW 10 11).plan_hash = (manifestW 20 21).plan_hash
    ∧ (manifestW 10 11).te_hash = (manifestW 20 21).te_hash
    ∧ (∀ a b : List Nat, (xor_hashes a b).length = 32
        ∧ ∀ i : Nat, i < 32 →
            (xor_hashes a b).getD i 0 = Nat.xor (a.getD i 0) (b.getD i 0)) :=
  C8_manifest_hashes hashExtW
    (fun _ => some (fun _ => .ok ⟨[]⟩))
    (fun _ => some (fun inputs => .ok ⟨(inputs.headD ⟨[]⟩).columns⟩))
    3 4 orderW 10 11 20 21 (manifestW 10 11) (manifestW 20 21)
    rfl rfl

end EmSqrt
